import Mathlib

/-!
Verification development for the `ctcdecoder` crate (`src/lib.rs`): a CTC beam-search
decoder.  The driver `beam_search` is translated from `src/lib.rs`; the label-history
store (`mod tree`, not present in the sources) is modelled from the specification.

Probability values of the program are IEEE-754 binary32 (`f32`).  We model the `f32`
values arising here with the type `F` below: an exact rational payload plus the special
values NaN, plus and minus infinity, with IEEE semantics for the arithmetic and
comparison operators the program uses.  All concrete inputs used in the theorems are
small dyadic rationals, on which binary32 arithmetic is exact, so `F`'s arithmetic
agrees with the program's on every computation appearing in this file.
-/

/-- Rational addition computed through `mkRat` (kernel-reducible; equal to `a + b`
by `qadd_eq_add` below). -/
def qadd (a b : ℚ) : ℚ :=
  mkRat (a.num * b.den + b.num * a.den) (a.den * b.den)

/-- Rational multiplication computed through `mkRat` (equal to `a * b`). -/
def qmul (a b : ℚ) : ℚ :=
  mkRat (a.num * b.num) (a.den * b.den)

/-- Rational inverse computed through `mkRat` (equal to `a⁻¹`). -/
def qinv (a : ℚ) : ℚ :=
  if 0 ≤ a.num then mkRat a.den a.num.toNat
  else mkRat (-(a.den : Int)) a.num.natAbs

/-- Rational division computed through `mkRat` (equal to `a / b`). -/
def qdiv (a b : ℚ) : ℚ :=
  qmul a (qinv b)

theorem qadd_eq_add (a b : ℚ) : qadd a b = a + b := by
  rw [qadd, Rat.add_def, Rat.normalize_eq_mkRat]

theorem qmul_eq_mul (a b : ℚ) : qmul a b = a * b := by
  rw [qmul, Rat.mul_def, Rat.normalize_eq_mkRat]

theorem qinv_eq_inv (a : ℚ) : qinv a = a⁻¹ := by
  rw [qinv]
  rcases lt_trichotomy a.num 0 with h | h | h
  · rw [if_neg (by omega)]
    rw [Rat.mkRat_eq_div]
    rw [show a⁻¹ = ((a.num : ℚ) / (a.den : ℚ))⁻¹ by rw [Rat.num_div_den]]
    rw [inv_div]
    have hcast : ((a.num.natAbs : ℚ)) = -(a.num : ℚ) := by
      have h2 : (a.num.natAbs : ℤ) = -a.num := by omega
      calc ((a.num.natAbs : ℚ)) = (((a.num.natAbs : ℤ) : ℚ)) := (Int.cast_natCast _).symm
      _ = ((-a.num : ℤ) : ℚ) := by rw [h2]
      _ = -(a.num : ℚ) := by push_cast; ring
    rw [hcast]
    push_cast
    ring
  · rw [if_pos (by omega)]
    have h0 : a = 0 := by
      have := a.num_div_den
      rw [h] at this
      simpa using this.symm
    subst h0
    simp
  · rw [if_pos (by omega)]
    rw [Rat.mkRat_eq_div]
    rw [show a⁻¹ = ((a.num : ℚ) / (a.den : ℚ))⁻¹ by rw [Rat.num_div_den]]
    rw [inv_div]
    have hcast : ((a.num.toNat : ℚ)) = (a.num : ℚ) := by
      have h2 : (a.num.toNat : ℤ) = a.num := by omega
      calc ((a.num.toNat : ℚ)) = (((a.num.toNat : ℤ) : ℚ)) := (Int.cast_natCast _).symm
      _ = (a.num : ℚ) := by rw [h2]
    rw [hcast]
    push_cast
    ring

theorem qdiv_eq_div (a b : ℚ) : qdiv a b = a / b := by
  rw [qdiv, qmul_eq_mul, qinv_eq_inv, div_eq_mul_inv]

/-- Model of the IEEE-754 binary32 values used by the decoder: NaN, the two
infinities, and finite values carried exactly as rationals (no signed zero). -/
inductive F where
  | nan : F
  | inf : F
  | ninf : F
  | fin : ℚ → F
deriving DecidableEq, Repr

/-- IEEE addition on `F` (NaN propagates, `inf + ninf = NaN`). -/
def F.add : F → F → F
  | .nan, _ => .nan
  | _, .nan => .nan
  | .inf, .ninf => .nan
  | .ninf, .inf => .nan
  | .inf, _ => .inf
  | _, .inf => .inf
  | .ninf, _ => .ninf
  | _, .ninf => .ninf
  | .fin a, .fin b => .fin (qadd a b)

/-- IEEE multiplication on `F` (NaN propagates, `inf * 0 = NaN`). -/
def F.mul : F → F → F
  | .nan, _ => .nan
  | _, .nan => .nan
  | .inf, .inf => .inf
  | .inf, .ninf => .ninf
  | .ninf, .inf => .ninf
  | .ninf, .ninf => .inf
  | .inf, .fin b => if b = 0 then .nan else if 0 < b then .inf else .ninf
  | .fin a, .inf => if a = 0 then .nan else if 0 < a then .inf else .ninf
  | .ninf, .fin b => if b = 0 then .nan else if 0 < b then .ninf else .inf
  | .fin a, .ninf => if a = 0 then .nan else if 0 < a then .ninf else .inf
  | .fin a, .fin b => .fin (qmul a b)

/-- IEEE division on `F`: NaN propagates, `0 / 0 = NaN`, a nonzero finite value
divided by zero gives a signed infinity, finite over infinite gives zero. -/
def F.div : F → F → F
  | .nan, _ => .nan
  | _, .nan => .nan
  | .inf, .inf => .nan
  | .inf, .ninf => .nan
  | .ninf, .inf => .nan
  | .ninf, .ninf => .nan
  | .inf, .fin b => if 0 ≤ b then .inf else .ninf
  | .ninf, .fin b => if 0 ≤ b then .ninf else .inf
  | .fin _, .inf => .fin 0
  | .fin _, .ninf => .fin 0
  | .fin a, .fin b =>
    if b = 0 then (if a = 0 then .nan else if 0 < a then .inf else .ninf)
    else .fin (qdiv a b)

/-- IEEE strict less-than on `F`: any comparison with NaN is false. -/
def F.ltB : F → F → Bool
  | .nan, _ => false
  | _, .nan => false
  | .ninf, .ninf => false
  | .ninf, _ => true
  | _, .ninf => false
  | .inf, _ => false
  | .fin _, .inf => true
  | .fin a, .fin b => decide (a < b)

/-- IEEE less-than-or-equal on `F`: any comparison with NaN is false. -/
def F.leB : F → F → Bool
  | .nan, _ => false
  | _, .nan => false
  | .ninf, _ => true
  | _, .ninf => false
  | _, .inf => true
  | .inf, _ => false
  | .fin a, .fin b => decide (a ≤ b)

/-- Whether an `F` value is NaN. -/
def F.isNan : F → Bool
  | .nan => true
  | _ => false

/-- Whether an `F` value is finite. -/
def F.isFin : F → Bool
  | .fin _ => true
  | _ => false

/-- Beam-search hypothesis, translated from `struct SearchPoint` in `src/lib.rs`. -/
structure SearchPoint where
  /-- The node search should progress from. -/
  node : Int
  /-- The transition state for crf (carried, never interpreted by this core). -/
  state : Nat
  /-- Probability of the labelling so far for paths without any leading blank labels. -/
  label_prob : F
  /-- Probability of the labelling so far for paths with one or more leading blanks. -/
  gap_prob : F
deriving DecidableEq, Repr

/-- Total probability of a hypothesis, translated from `SearchPoint::probability`. -/
def SearchPoint.probability (sp : SearchPoint) : F :=
  sp.label_prob.add sp.gap_prob

/-- Error taxonomy, translated from `enum SearchError` in `src/lib.rs`. -/
inductive SearchError where
  | RanOutOfBeam : SearchError
  | IncomparableValues : SearchError
  | InvalidEnvelope : SearchError
deriving DecidableEq, Repr

/-- The reserved root sentinel node id.  Modelled from the spec: a reserved `ROOT`
sentinel id that is never allocated; allocated ids are the monotonically increasing
values `0, 1, 2, ...`, so the sentinel is taken negative. -/
def ROOT_NODE : Int := -1

/-- One entry of the label-history store.  Modelled from the spec: `add_node(parent,
label, time)` records the parent id, the symbol on the incoming edge and the creation
timestep. -/
structure TreeNode where
  parent : Int
  label : Nat
  time : Nat
deriving DecidableEq, Repr

/-- Modelled from the spec: the label-history store (`mod tree`, file absent from the
sources).  An append-only arena of nodes addressed by integer id (node `i` is
`nodes[i]`), holding only `ROOT` when created.  `alphabet_size` is the label count
(alphabet length minus the blank). -/
structure SuffixTree where
  alphabet_size : Nat
  nodes : List TreeNode
deriving DecidableEq, Repr

/-- Modelled from the spec: `new(alphabet_size)` creates a store containing only
`ROOT`. -/
def SuffixTree.new (alphabet_size : Nat) : SuffixTree :=
  ⟨alphabet_size, []⟩

/-- Modelled from the spec: `label(node)` returns the symbol on the edge into `node`,
or none for `ROOT`. -/
def SuffixTree.label (t : SuffixTree) (n : Int) : Option Nat :=
  if n = ROOT_NODE then none
  else (t.nodes.get? n.toNat).map (·.label)

/-- Modelled from the spec (Child Index): `get_child(node, label)` returns the existing
child id for the `(node, label)` pair, else none.  The store keeps at most one child
per `(parent, label)` pair because the driver always consults this before creating. -/
def SuffixTree.get_child (t : SuffixTree) (n : Int) (l : Nat) : Option Int :=
  (t.nodes.findIdx? fun nd => nd.parent == n && nd.label == l).map Int.ofNat

/-- Modelled from the spec: `add_node(parent, label, time)` allocates the next id,
records `(parent, label, time)` and returns the id (the store only grows). -/
def SuffixTree.add_node (t : SuffixTree) (parent : Int) (l : Nat) (time : Nat) :
    SuffixTree × Int :=
  (⟨t.alphabet_size, t.nodes ++ [⟨parent, l, time⟩]⟩, Int.ofNat t.nodes.length)

/-- Fuel-bounded ancestor walk backing `iter_from`; the fuel (number of stored nodes
plus one) is an upper bound on any root path length, so the walk is total. -/
def SuffixTree.iterFromAux (t : SuffixTree) : Nat → Int → List (Nat × Nat)
  | 0, _ => []
  | fuel + 1, n =>
    if n = ROOT_NODE then []
    else
      match t.nodes.get? n.toNat with
      | none => []
      | some nd => (nd.label, nd.time) :: t.iterFromAux fuel nd.parent

/-- Modelled from the spec: `iter_from(node)` walks from `node` up to (but excluding)
`ROOT`, in tip-to-root order, yielding `(label, time)` pairs. -/
def SuffixTree.iter_from (t : SuffixTree) (n : Int) : List (Nat × Nat) :=
  t.iterFromAux (t.nodes.length + 1) n

/-- The beam cut-off threshold, translated from `let beam_cut_threshold = 0.;`. -/
def beam_cut_threshold : F := F.fin 0

/-- Body of the label loop of `beam_search` (lines 121-156 of `src/lib.rs`) for one
hypothesis, one label index `l` and row entry `pr_b`, given the hypothesis's tip
label.  Returns the updated store and the hypotheses pushed onto `next_beam`, in push
order. -/
def labelStep (tree : SuffixTree) (sp : SearchPoint) (tip : Option Nat) (idx : Nat)
    (l : Nat) (pr_b : F) : SuffixTree × List SearchPoint :=
  if some l = tip then
    let stay : SearchPoint :=
      { node := sp.node, state := sp.state
        label_prob := sp.label_prob.mul pr_b, gap_prob := F.fin 0 }
    match tree.get_child sp.node l with
    | some c =>
      (tree, [stay,
        { node := c, state := sp.state
          label_prob := sp.gap_prob.mul pr_b, gap_prob := F.fin 0 }])
    | none =>
      if F.ltB (F.fin 0) sp.gap_prob then
        let r := tree.add_node sp.node l idx
        (r.1, [stay,
          { node := r.2, state := sp.state
            label_prob := sp.gap_prob.mul pr_b, gap_prob := F.fin 0 }])
      else (tree, [stay])
  else
    match tree.get_child sp.node l with
    | some c =>
      (tree, [{ node := c, state := sp.state
                label_prob := (sp.label_prob.add sp.gap_prob).mul pr_b
                gap_prob := F.fin 0 }])
    | none =>
      let r := tree.add_node sp.node l idx
      (r.1, [{ node := r.2, state := sp.state
               label_prob := (sp.label_prob.add sp.gap_prob).mul pr_b
               gap_prob := F.fin 0 }])

/-- The label loop of `beam_search` (`for (label, pr_b) in pr.iter().skip(1)
.enumerate()`): entries strictly below the cut-off are skipped, every other entry runs
`labelStep`.  `l` is the label index of the first entry of `rest`. -/
def expandLabels (tree : SuffixTree) (sp : SearchPoint) (tip : Option Nat) (idx : Nat) :
    List F → Nat → SuffixTree × List SearchPoint
  | [], _ => (tree, [])
  | pr_b :: rest, l =>
    if F.ltB pr_b beam_cut_threshold then expandLabels tree sp tip idx rest (l + 1)
    else
      let r := labelStep tree sp tip idx l pr_b
      let r2 := expandLabels r.1 sp tip idx rest (l + 1)
      (r2.1, r.2 ++ r2.2)

/-- Expansion of a single hypothesis over one probability row (lines 104-157): the
blank extension (emitted only when `pr[0]` strictly exceeds the cut-off) followed by
the label extensions.  `none` models the index-out-of-bounds abort of `pr[0]` on an
empty row. -/
def expandOne (tree : SuffixTree) (sp : SearchPoint) (row : List F) (idx : Nat) :
    Option (SuffixTree × List SearchPoint) :=
  match row with
  | [] => none
  | pr0 :: rest =>
    let tip := tree.label sp.node
    let blankPts : List SearchPoint :=
      if F.ltB beam_cut_threshold pr0 then
        [{ node := sp.node, state := sp.state, label_prob := F.fin 0
           gap_prob := (sp.label_prob.add sp.gap_prob).mul pr0 }]
      else []
    let r := expandLabels tree sp tip idx rest 0
    some (r.1, blankPts ++ r.2)

/-- The EXPAND stage: every hypothesis of the beam is expanded in order, threading the
store through the node creations. -/
def expandRow (tree : SuffixTree) : List SearchPoint → List F → Nat →
    Option (SuffixTree × List SearchPoint)
  | [], _, _ => some (tree, [])
  | sp :: rest, row, idx =>
    match expandOne tree sp row idx with
    | none => none
    | some r =>
      match expandRow r.1 rest row idx with
      | none => none
      | some r2 => some (r2.1, r.2 ++ r2.2)

/-- Stable insertion of one element under a boolean "comes before or with" relation. -/
def insertOrd (le : SearchPoint → SearchPoint → Bool) (x : SearchPoint) :
    List SearchPoint → List SearchPoint
  | [] => [x]
  | y :: rest => if le x y then x :: y :: rest else y :: insertOrd le x rest

/-- Stable insertion sort.  Models the program's slice sorts: for the slice lengths
arising here Rust's `sort_by_key` / `sort_unstable_by` perform a stable insertion
sort, so on every tie-free or all-tied comparison sequence the result coincides. -/
def isort (le : SearchPoint → SearchPoint → Bool) : List SearchPoint → List SearchPoint
  | [] => []
  | x :: xs => insertOrd le x (isort le xs)

/-- The MERGE pre-sort (`beam.sort_by_key(|x| x.node)`): ascending, stable, by node. -/
def sortByNode (beam : List SearchPoint) : List SearchPoint :=
  isort (fun a b => decide (a.node ≤ b.node)) beam

/-- Helper of the duplicate-collapse pass: `a` is the first hypothesis of the current
run of equal nodes, accumulating the component-wise sums of the run. -/
def mergeInto (a : SearchPoint) : List SearchPoint → List SearchPoint
  | [] => [a]
  | b :: rest =>
    if a.node = b.node then
      mergeInto { a with label_prob := a.label_prob.add b.label_prob
                         gap_prob := a.gap_prob.add b.gap_prob } rest
    else a :: mergeInto b rest

/-- The duplicate-collapse pass of MERGE (lines 161-177): on the node-sorted beam,
adjacent hypotheses with equal nodes are folded into the first of the run by summing
`label_prob` and `gap_prob`; the marker/retain mechanics of the source reduce to
exactly this on a node-sorted list. -/
def mergeAdjacent : List SearchPoint → List SearchPoint
  | [] => []
  | a :: rest => mergeInto a rest

/-- Descending comparison by total probability used by PRUNE, from
`(b.probability()).partial_cmp(&(a.probability()))`: `a` comes before `b` unless `a`'s
total is strictly below `b`'s (incomparable pairs yield `Ordering::Equal` there). -/
def probGe (a b : SearchPoint) : Bool :=
  !(F.ltB a.probability b.probability)

/-- The PRUNE sort: descending by total probability. -/
def sortByProb (beam : List SearchPoint) : List SearchPoint :=
  isort probGe beam

/-- Whether the ranking comparison of PRUNE observes an incomparable pair (the
`has_nans` flag of lines 178-189).  A comparison is incomparable exactly when one side
is NaN, and every element of a slice of length at least two takes part in at least one
comparison of the sort (for these lengths it is an insertion sort), so the flag is set
iff the beam has at least two hypotheses and one has NaN total probability. -/
def hasNans (beam : List SearchPoint) : Bool :=
  2 ≤ beam.length && beam.any fun sp => sp.probability.isNan

/-- Result of one timestep, or of the whole loop, of `beam_search`. -/
inductive LoopRes where
  | panicked : LoopRes
  | failed : SearchError → LoopRes
  | next : SuffixTree → List SearchPoint → LoopRes
deriving DecidableEq, Repr

/-- One timestep of `beam_search` (lines 94-200): EXPAND, MERGE, the ranking sort with
its NaN check, truncation to `beam_size` with the empty-beam check, and
renormalization by the top hypothesis's total probability. -/
def stepRow (tree : SuffixTree) (beam : List SearchPoint) (row : List F) (idx : Nat)
    (beam_size : Nat) : LoopRes :=
  match expandRow tree beam row idx with
  | none => .panicked
  | some r =>
    let merged := mergeAdjacent (sortByNode r.2)
    if hasNans merged then .failed .IncomparableValues
    else
      let pruned := (sortByProb merged).take beam_size
      match pruned with
      | [] => .failed .RanOutOfBeam
      | top :: _ =>
        let t := top.probability
        .next r.1 (pruned.map fun sp =>
          { sp with label_prob := sp.label_prob.div t, gap_prob := sp.gap_prob.div t })

/-- The timestep loop of `beam_search` over the matrix rows. -/
def runLoop (tree : SuffixTree) (beam : List SearchPoint) (beam_size : Nat) :
    List (List F) → Nat → LoopRes
  | [], _ => .next tree beam
  | row :: rest, idx =>
    match stepRow tree beam row idx beam_size with
    | .panicked => .panicked
    | .failed e => .failed e
    | .next t2 b2 => runLoop t2 b2 beam_size rest (idx + 1)

/-- Output-string reconstruction for one node (lines 209-214): push
`alphabet[label + 1]` for each `iter_from` step, then reverse.  `none` models the
out-of-bounds abort of the byte indexing. -/
def reconstruct (tree : SuffixTree) (alphabet : List Char) (n : Int) : Option String :=
  ((tree.iter_from n).mapM fun p => alphabet.get? (p.1 + 1)).map
    fun cs => String.mk cs.reverse

/-- The FINALIZE stage (lines 205-216): every surviving hypothesis except those still
at `ROOT` contributes its total probability and reconstructed string, in beam order. -/
def finalize (tree : SuffixTree) (alphabet : List Char) :
    List SearchPoint → Option (List String × List F)
  | [] => some ([], [])
  | sp :: rest =>
    if sp.node = ROOT_NODE then finalize tree alphabet rest
    else
      match reconstruct tree alphabet sp.node with
      | none => none
      | some s =>
        match finalize tree alphabet rest with
        | none => none
        | some r => some (s :: r.1, sp.probability :: r.2)

/-- Outcome of a `beam_search` call: a value, a `PyRuntimeError` carrying one of the
`SearchError` kinds, or a Rust panic (assertion failure, checked-arithmetic overflow
or out-of-bounds indexing), which pyo3 surfaces as unwinding, not as a return value. -/
inductive DecodeResult where
  | ok : List String → List F → DecodeResult
  | err : SearchError → DecodeResult
  | panicked : DecodeResult
deriving DecidableEq, Repr

/-- The initial beam hypothesis (lines 86-91). -/
def initPoint : SearchPoint :=
  { node := ROOT_NODE, state := 0, label_prob := F.fin 0, gap_prob := F.fin 1 }

/-- The `beam_search` entry point of `src/lib.rs`.  `shape` is the shape of the numpy
array handed over by the binding layer (`probs.shape()`), `probs` its rows.  The
leading `assert_eq!(probs.shape().len(), 2, ...)` is a panic on failure, and
`alphabet.len() - 1` on the unsigned `usize` aborts on an empty alphabet (debug-profile
overflow check). -/
def beam_search (shape : List Nat) (probs : List (List F)) (alphabet : List Char)
    (beam_size : Nat) : DecodeResult :=
  if shape.length ≠ 2 then .panicked
  else if alphabet.length < 1 then .panicked
  else
    match runLoop (SuffixTree.new (alphabet.length - 1)) [initPoint] beam_size probs 0 with
    | .panicked => .panicked
    | .failed e => .err e
    | .next tree beam =>
      match finalize tree alphabet beam with
      | none => .panicked
      | some r => .ok r.1 r.2

/-- Whether a list of scores is non-increasing under the IEEE order (each adjacent
pair satisfies `next ≤ previous`; false as soon as a NaN participates in a pair, as in
the source language's `<=` on floats). -/
def nonIncreasingF : List F → Bool
  | [] => true
  | [_] => true
  | a :: b :: rest => F.leB b a && nonIncreasingF (b :: rest)

/-- A store holding the single chain ROOT → node 0 (label 0), built through the store
interface: the state reached after `add_node(ROOT_NODE, 0, 0)`. -/
def treeA : SuffixTree × Int := (SuffixTree.new 1).add_node ROOT_NODE 0 0

/-- The store `treeA` extended with the child `(node 0, label 0)` (node 1), i.e. the
chain ROOT → 0 → 1: the state after a further `add_node(0, 0, 1)`. -/
def treeAA : SuffixTree × Int := treeA.1.add_node treeA.2 0 1

/-- A hypothesis sitting at node 0 of `treeAA` whose gap probability is exactly zero
(all its mass is label mass). -/
def pointA : SearchPoint :=
  { node := treeA.2, state := 0, label_prob := F.fin 1, gap_prob := F.fin 0 }

/-- A probability row dominated by blank: the first (blank) entry is a finite,
strictly positive value and every other entry is finite, nonnegative and strictly
below it. -/
def DomRow (row : List F) : Prop :=
  ∃ q0 : ℚ, row.head? = some (F.fin q0) ∧ 0 < q0 ∧
    ∀ x ∈ row.tail, ∃ q : ℚ, x = F.fin q ∧ 0 ≤ q ∧ q < q0

/-- Shape of the store reachable in a run whose beam stays at `ROOT`: counting from
`k`, every stored node is a child of `ROOT` and the node at position `i` carries
label `k + i`. -/
def RootChildrenFrom (k : Nat) : List TreeNode → Prop
  | [] => True
  | nd :: rest => nd.parent = ROOT_NODE ∧ nd.label = k ∧ RootChildrenFrom (k + 1) rest

/-- A row all of whose entries are finite and strictly positive. -/
def PosRow (row : List F) : Prop :=
  ∀ x ∈ row, ∃ q : ℚ, x = F.fin q ∧ 0 < q

/-- A hypothesis whose two probability components are finite and nonnegative. -/
def WfPoint (sp : SearchPoint) : Prop :=
  (∃ q : ℚ, sp.label_prob = F.fin q ∧ 0 ≤ q) ∧
  ∃ q : ℚ, sp.gap_prob = F.fin q ∧ 0 ≤ q

/-- A beam ordered non-increasingly by total probability (the order established by
the PRUNE sort). -/
def SortedBeam (beam : List SearchPoint) : Prop :=
  List.Pairwise (fun a b => probGe a b = true) beam

/-- The beam invariant holding after every RENORMALIZE: all components finite and
nonnegative, sorted by descending total, and the leading hypothesis has total
probability exactly 1. -/
def InvBeam (beam : List SearchPoint) : Prop :=
  (∀ sp ∈ beam, WfPoint sp) ∧ SortedBeam beam ∧
  ∃ h t, beam = h :: t ∧ h.probability = F.fin 1

/-- All labels stored in the tree address a valid alphabet position (`label + 1`
indexes into the alphabet). -/
def TreeLabelsLt (tree : SuffixTree) (A : Nat) : Prop :=
  ∀ nd ∈ tree.nodes, nd.label + 1 < A

/-! ### Basic lemmas about the model -/

theorem F.add_isFin {a b : F} (ha : a.isFin = true) (hb : b.isFin = true) :
    (a.add b).isFin = true := by
  cases a <;> cases b <;> simp_all [F.isFin, F.add]

theorem F.mul_isFin {a b : F} (ha : a.isFin = true) (hb : b.isFin = true) :
    (a.mul b).isFin = true := by
  cases a <;> cases b <;> simp_all [F.isFin, F.mul]

theorem F.isFin_not_isNan {a : F} (ha : a.isFin = true) : a.isNan = false := by
  cases a <;> simp_all [F.isFin, F.isNan]

theorem labelStep_snd_ne_nil (tree : SuffixTree) (sp : SearchPoint) (tip : Option Nat)
    (idx l : Nat) (pr_b : F) : (labelStep tree sp tip idx l pr_b).2 ≠ [] := by
  unfold labelStep
  split
  · cases hgc : tree.get_child sp.node l <;> simp [hgc]
    split <;> simp
  · cases hgc : tree.get_child sp.node l <;> simp [hgc]

theorem expandLabels_snd_ne_nil (tree : SuffixTree) (sp : SearchPoint)
    (tip : Option Nat) (idx : Nat) (rest : List F) (l : Nat) (hr : rest ≠ [])
    (hnn : ∀ x ∈ rest, F.ltB x (F.fin 0) = false) :
    (expandLabels tree sp tip idx rest l).2 ≠ [] := by
  match rest with
  | [] => exact absurd rfl hr
  | pr_b :: rest' =>
    have h0 : F.ltB pr_b beam_cut_threshold = false := hnn pr_b (by simp)
    unfold expandLabels
    simp only [h0, Bool.false_eq_true, if_false]
    intro happ
    exact labelStep_snd_ne_nil tree sp tip idx l pr_b (List.append_eq_nil.mp happ).1

theorem expandOne_snd_ne_nil (tree : SuffixTree) (sp : SearchPoint) (row : List F)
    (idx : Nat) (hlen : 2 ≤ row.length)
    (hnn : ∀ x ∈ row, F.ltB x (F.fin 0) = false) :
    ∀ r, expandOne tree sp row idx = some r → r.2 ≠ [] := by
  match row with
  | [] => simp at hlen
  | pr0 :: rest =>
    intro r hr
    have hrest : rest ≠ [] := by
      intro h; subst h; simp at hlen
    unfold expandOne at hr
    simp only [Option.some.injEq] at hr
    subst hr
    simp only []
    intro happ
    exact expandLabels_snd_ne_nil tree sp (tree.label sp.node) idx rest 0 hrest
      (fun x hx => hnn x (List.mem_cons_of_mem _ hx)) (List.append_eq_nil.mp happ).2

theorem expandRow_snd_ne_nil (beam : List SearchPoint) (tree : SuffixTree)
    (row : List F) (idx : Nat) (hb : beam ≠ []) (hlen : 2 ≤ row.length)
    (hnn : ∀ x ∈ row, F.ltB x (F.fin 0) = false) :
    ∀ r, expandRow tree beam row idx = some r → r.2 ≠ [] := by
  match beam with
  | [] => exact absurd rfl hb
  | sp :: rest =>
    cases h1 : expandOne tree sp row idx with
    | none => intro r hr; simp [expandRow, h1] at hr
    | some r1 =>
      cases h2 : expandRow r1.1 rest row idx with
      | none => intro r hr; simp [expandRow, h1, h2] at hr
      | some r2 =>
        intro r hr
        simp only [expandRow, h1, h2, Option.some.injEq] at hr
        subst hr
        simp only []
        intro happ
        exact expandOne_snd_ne_nil tree sp row idx hlen hnn r1 h1
          (List.append_eq_nil.mp happ).1

theorem insertOrd_ne_nil (le : SearchPoint → SearchPoint → Bool) (x : SearchPoint)
    (l : List SearchPoint) : insertOrd le x l ≠ [] := by
  cases l with
  | nil => simp [insertOrd]
  | cons y rest => unfold insertOrd; split <;> simp

theorem isort_ne_nil (le : SearchPoint → SearchPoint → Bool) (l : List SearchPoint)
    (hl : l ≠ []) : isort le l ≠ [] := by
  cases l with
  | nil => exact absurd rfl hl
  | cons x rest => exact insertOrd_ne_nil le x (isort le rest)

theorem mergeInto_ne_nil (l : List SearchPoint) : ∀ a, mergeInto a l ≠ [] := by
  induction l with
  | nil => intro a; simp [mergeInto]
  | cons b rest ih =>
    intro a
    unfold mergeInto
    split
    · exact ih _
    · simp

theorem mergeAdjacent_ne_nil : ∀ l : List SearchPoint, l ≠ [] → mergeAdjacent l ≠ [] := by
  intro l hl
  cases l with
  | nil => exact absurd rfl hl
  | cons a rest => exact mergeInto_ne_nil rest a

theorem stepRow_next_ne_nil (tree : SuffixTree) (beam : List SearchPoint)
    (row : List F) (idx beam_size : Nat) (t2 : SuffixTree) (b2 : List SearchPoint)
    (h : stepRow tree beam row idx beam_size = .next t2 b2) : b2 ≠ [] := by
  unfold stepRow at h
  cases hE : expandRow tree beam row idx with
  | none => rw [hE] at h; exact absurd h (by simp)
  | some r =>
    rw [hE] at h
    simp only [] at h
    split at h
    · exact absurd h (by simp)
    · split at h
      · exact absurd h (by simp)
      · next x y rest heq =>
        simp only [LoopRes.next.injEq] at h
        rw [← h.2, heq]
        simp

theorem stepRow_failed_kind (tree : SuffixTree) (beam : List SearchPoint)
    (row : List F) (idx beam_size : Nat) (e : SearchError)
    (h : stepRow tree beam row idx beam_size = .failed e) :
    e = .IncomparableValues ∨ e = .RanOutOfBeam := by
  unfold stepRow at h
  cases hE : expandRow tree beam row idx with
  | none => rw [hE] at h; exact absurd h (by simp)
  | some r =>
    rw [hE] at h
    simp only [] at h
    split at h
    · exact Or.inl (by cases h; rfl)
    · split at h
      · exact Or.inr (by cases h; rfl)
      · exact absurd h (by simp)

theorem runLoop_failed_kind (rows : List (List F)) : ∀ (tree : SuffixTree)
    (beam : List SearchPoint) (beam_size idx : Nat) (e : SearchError),
    runLoop tree beam beam_size rows idx = .failed e →
    e = .IncomparableValues ∨ e = .RanOutOfBeam := by
  induction rows with
  | nil => intro tree beam bs idx e h; simp [runLoop] at h
  | cons row rest ih =>
    intro tree beam bs idx e h
    unfold runLoop at h
    cases hs : stepRow tree beam row idx bs with
    | panicked => rw [hs] at h; exact absurd h (by simp)
    | failed e2 =>
      rw [hs] at h
      simp only [LoopRes.failed.injEq] at h
      subst h
      exact stepRow_failed_kind tree beam row idx bs e2 hs
    | next t2 b2 =>
      rw [hs] at h
      exact ih t2 b2 bs (idx + 1) e h

theorem stepRow_ne_ranOut (tree : SuffixTree) (beam : List SearchPoint) (row : List F)
    (idx beam_size : Nat) (hb : beam ≠ []) (hbs : 1 ≤ beam_size)
    (hlen : 2 ≤ row.length) (hnn : ∀ x ∈ row, F.ltB x (F.fin 0) = false) :
    stepRow tree beam row idx beam_size ≠ .failed .RanOutOfBeam := by
  unfold stepRow
  cases hE : expandRow tree beam row idx with
  | none => simp
  | some r =>
    have hr2 : r.2 ≠ [] := expandRow_snd_ne_nil beam tree row idx hb hlen hnn r hE
    simp only []
    split
    · simp
    · have hm : mergeAdjacent (sortByNode r.2) ≠ [] :=
        mergeAdjacent_ne_nil _ (isort_ne_nil _ _ hr2)
      have hs : sortByProb (mergeAdjacent (sortByNode r.2)) ≠ [] :=
        isort_ne_nil _ _ hm
      have ht : (sortByProb (mergeAdjacent (sortByNode r.2))).take beam_size ≠ [] := by
        cases hcase : sortByProb (mergeAdjacent (sortByNode r.2)) with
        | nil => exact absurd hcase hs
        | cons a rest =>
          cases beam_size with
          | zero => omega
          | succ n => simp [List.take]
      split
      · next heq => exact absurd heq ht
      · simp

theorem runLoop_ne_ranOut (rows : List (List F)) : ∀ (tree : SuffixTree)
    (beam : List SearchPoint) (beam_size idx : Nat), beam ≠ [] → 1 ≤ beam_size →
    (∀ row ∈ rows, 2 ≤ row.length ∧ ∀ x ∈ row, F.ltB x (F.fin 0) = false) →
    runLoop tree beam beam_size rows idx ≠ .failed .RanOutOfBeam := by
  induction rows with
  | nil => intro tree beam bs idx _ _ _; simp [runLoop]
  | cons row rest ih =>
    intro tree beam bs idx hb hbs hrows
    unfold runLoop
    cases hs : stepRow tree beam row idx bs with
    | panicked => simp
    | failed e =>
      intro h
      simp only [LoopRes.failed.injEq] at h
      subst h
      exact stepRow_ne_ranOut tree beam row idx bs hb hbs (hrows row (by simp)).1
        (hrows row (by simp)).2 hs
    | next t2 b2 =>
      exact ih t2 b2 bs (idx + 1) (stepRow_next_ne_nil tree beam row idx bs t2 b2 hs)
        hbs (fun r hr => hrows r (by simp [hr]))

theorem labelStep_shape (tree : SuffixTree) (sp : SearchPoint) (tip : Option Nat)
    (idx l : Nat) (pr_b : F) :
    ∀ p ∈ (labelStep tree sp tip idx l pr_b).2,
      p.gap_prob = F.fin 0 ∧
      (p.label_prob = sp.label_prob.mul pr_b ∨ p.label_prob = sp.gap_prob.mul pr_b ∨
       p.label_prob = (sp.label_prob.add sp.gap_prob).mul pr_b) := by
  unfold labelStep
  split
  · cases hgc : tree.get_child sp.node l with
    | some c =>
      simp only [hgc]
      intro p hp2
      simp only [List.mem_cons, List.not_mem_nil, or_false] at hp2
      rcases hp2 with h | h
      · subst h; exact ⟨rfl, Or.inl rfl⟩
      · subst h; exact ⟨rfl, Or.inr (Or.inl rfl)⟩
    | none =>
      simp only [hgc]
      split
      · intro p hp2
        simp only [List.mem_cons, List.not_mem_nil, or_false] at hp2
        rcases hp2 with h | h
        · subst h; exact ⟨rfl, Or.inl rfl⟩
        · subst h; exact ⟨rfl, Or.inr (Or.inl rfl)⟩
      · intro p hp2
        simp only [List.mem_cons, List.not_mem_nil, or_false] at hp2
        subst hp2; exact ⟨rfl, Or.inl rfl⟩
  · cases hgc : tree.get_child sp.node l with
    | some c =>
      simp only [hgc]
      intro p hp2
      simp only [List.mem_cons, List.not_mem_nil, or_false] at hp2
      subst hp2; exact ⟨rfl, Or.inr (Or.inr rfl)⟩
    | none =>
      simp only [hgc]
      intro p hp2
      simp only [List.mem_cons, List.not_mem_nil, or_false] at hp2
      subst hp2; exact ⟨rfl, Or.inr (Or.inr rfl)⟩

theorem labelStep_fin (tree : SuffixTree) (sp : SearchPoint) (tip : Option Nat)
    (idx l : Nat) (pr_b : F) (hl : sp.label_prob.isFin = true)
    (hg : sp.gap_prob.isFin = true) (hp : pr_b.isFin = true) :
    ∀ p ∈ (labelStep tree sp tip idx l pr_b).2,
      p.label_prob.isFin = true ∧ p.gap_prob.isFin = true := by
  intro p hp2
  obtain ⟨h1, h2⟩ := labelStep_shape tree sp tip idx l pr_b p hp2
  refine ⟨?_, by rw [h1]; rfl⟩
  rcases h2 with h | h | h <;> rw [h]
  · exact F.mul_isFin hl hp
  · exact F.mul_isFin hg hp
  · exact F.mul_isFin (F.add_isFin hl hg) hp

theorem expandLabels_fin (sp : SearchPoint) (tip : Option Nat) (idx : Nat)
    (rest : List F) : ∀ (tree : SuffixTree) (l : Nat),
    sp.label_prob.isFin = true → sp.gap_prob.isFin = true →
    (∀ x ∈ rest, x.isFin = true) →
    ∀ p ∈ (expandLabels tree sp tip idx rest l).2,
      p.label_prob.isFin = true ∧ p.gap_prob.isFin = true := by
  induction rest with
  | nil => intro tree l _ _ _ p hp2; simp [expandLabels] at hp2
  | cons pr_b rest' ih =>
    intro tree l hl hg hrow p hp2
    unfold expandLabels at hp2
    split at hp2
    · exact ih tree (l + 1) hl hg (fun x hx => hrow x (by simp [hx])) p hp2
    · simp only [List.mem_append] at hp2
      rcases hp2 with h | h
      · exact labelStep_fin tree sp tip idx l pr_b hl hg (hrow pr_b (by simp)) p h
      · exact ih _ (l + 1) hl hg (fun x hx => hrow x (by simp [hx])) p h

theorem expandOne_fin (tree : SuffixTree) (sp : SearchPoint) (row : List F)
    (idx : Nat) (hl : sp.label_prob.isFin = true) (hg : sp.gap_prob.isFin = true)
    (hrow : ∀ x ∈ row, x.isFin = true) :
    ∀ r, expandOne tree sp row idx = some r →
    ∀ p ∈ r.2, p.label_prob.isFin = true ∧ p.gap_prob.isFin = true := by
  match row with
  | [] => intro r hr; simp [expandOne] at hr
  | pr0 :: rest =>
    intro r hr
    unfold expandOne at hr
    simp only [Option.some.injEq] at hr
    subst hr
    intro p hp2
    simp only [List.mem_append] at hp2
    rcases hp2 with h | h
    · split at h
      · simp only [List.mem_cons, List.not_mem_nil, or_false] at h
        subst h
        exact ⟨rfl, F.mul_isFin (F.add_isFin hl hg) (hrow pr0 (by simp))⟩
      · simp at h
    · exact expandLabels_fin sp (tree.label sp.node) idx rest tree 0 hl hg
        (fun x hx => hrow x (by simp [hx])) p h

theorem expandRow_fin (beam : List SearchPoint) (row : List F) (idx : Nat) :
    ∀ (tree : SuffixTree),
    (∀ sp ∈ beam, sp.label_prob.isFin = true ∧ sp.gap_prob.isFin = true) →
    (∀ x ∈ row, x.isFin = true) →
    ∀ r, expandRow tree beam row idx = some r →
    ∀ p ∈ r.2, p.label_prob.isFin = true ∧ p.gap_prob.isFin = true := by
  induction beam with
  | nil =>
    intro tree _ _ r hr
    simp only [expandRow, Option.some.injEq] at hr
    subst hr
    intro p hp2
    simp at hp2
  | cons sp rest ih =>
    intro tree hbeam hrow r hr
    cases h1 : expandOne tree sp row idx with
    | none => simp [expandRow, h1] at hr
    | some r1 =>
      cases h2 : expandRow r1.1 rest row idx with
      | none => simp [expandRow, h1, h2] at hr
      | some r2 =>
        simp only [expandRow, h1, h2, Option.some.injEq] at hr
        subst hr
        intro p hp2
        simp only [List.mem_append] at hp2
        rcases hp2 with h | h
        · exact expandOne_fin tree sp row idx (hbeam sp (by simp)).1
            (hbeam sp (by simp)).2 hrow r1 h1 p h
        · exact ih r1.1 (fun x hx => hbeam x (by simp [hx])) hrow r2 h2 p h

theorem mem_insertOrd (le : SearchPoint → SearchPoint → Bool) (x : SearchPoint)
    (l : List SearchPoint) (a : SearchPoint) :
    a ∈ insertOrd le x l ↔ a = x ∨ a ∈ l := by
  induction l with
  | nil => simp [insertOrd]
  | cons y rest ih =>
    unfold insertOrd
    split
    · simp [List.mem_cons]
    · simp only [List.mem_cons, ih]
      tauto

theorem mem_isort (le : SearchPoint → SearchPoint → Bool) (l : List SearchPoint)
    (a : SearchPoint) : a ∈ isort le l ↔ a ∈ l := by
  induction l with
  | nil => simp [isort]
  | cons x rest ih =>
    unfold isort
    rw [mem_insertOrd, ih]
    simp [List.mem_cons]

theorem mergeInto_fin (l : List SearchPoint) : ∀ a : SearchPoint,
    a.label_prob.isFin = true ∧ a.gap_prob.isFin = true →
    (∀ sp ∈ l, sp.label_prob.isFin = true ∧ sp.gap_prob.isFin = true) →
    ∀ p ∈ mergeInto a l, p.label_prob.isFin = true ∧ p.gap_prob.isFin = true := by
  induction l with
  | nil =>
    intro a ha _ p hp2
    simp only [mergeInto, List.mem_cons, List.not_mem_nil, or_false] at hp2
    subst hp2
    exact ha
  | cons b rest ih =>
    intro a ha hl p hp2
    unfold mergeInto at hp2
    split at hp2
    · have hb := hl b (by simp)
      exact ih _ ⟨F.add_isFin ha.1 hb.1, F.add_isFin ha.2 hb.2⟩
        (fun q hq => hl q (by simp [hq])) p hp2
    · simp only [List.mem_cons] at hp2
      rcases hp2 with h2 | h2
      · subst h2; exact ha
      · exact ih _ (hl b (by simp)) (fun q hq => hl q (by simp [hq])) p h2

theorem mergeAdjacent_fin : ∀ l : List SearchPoint,
    (∀ sp ∈ l, sp.label_prob.isFin = true ∧ sp.gap_prob.isFin = true) →
    ∀ p ∈ mergeAdjacent l, p.label_prob.isFin = true ∧ p.gap_prob.isFin = true := by
  intro l h p hp2
  cases l with
  | nil => simp [mergeAdjacent] at hp2
  | cons a rest =>
    exact mergeInto_fin rest a (h a (by simp)) (fun q hq => h q (by simp [hq])) p hp2

theorem hasNans_false_of_fin (beam : List SearchPoint)
    (h : ∀ sp ∈ beam, sp.label_prob.isFin = true ∧ sp.gap_prob.isFin = true) :
    hasNans beam = false := by
  unfold hasNans
  have : (beam.any fun sp => sp.probability.isNan) = false := by
    rw [List.any_eq_false]
    intro sp hsp
    have := h sp hsp
    simp [F.isFin_not_isNan (F.add_isFin this.1 this.2), SearchPoint.probability]
  rw [this]
  simp

theorem stepRow_ne_incomparable (tree : SuffixTree) (beam : List SearchPoint)
    (row : List F) (idx beam_size : Nat)
    (hbeam : ∀ sp ∈ beam, sp.label_prob.isFin = true ∧ sp.gap_prob.isFin = true)
    (hrow : ∀ x ∈ row, x.isFin = true) :
    stepRow tree beam row idx beam_size ≠ .failed .IncomparableValues := by
  unfold stepRow
  cases hE : expandRow tree beam row idx with
  | none => simp
  | some r =>
    have hfin : ∀ p ∈ mergeAdjacent (sortByNode r.2),
        p.label_prob.isFin = true ∧ p.gap_prob.isFin = true := by
      refine mergeAdjacent_fin _ ?_
      intro sp hsp
      rw [sortByNode, mem_isort] at hsp
      exact expandRow_fin beam row idx tree hbeam hrow r hE sp hsp
    simp only []
    rw [hasNans_false_of_fin _ hfin]
    simp only [Bool.false_eq_true, if_false]
    split <;> simp

/-! ### Claim theorems -/

/-- C1, counterexample: on the all-zero single-row matrix (every entry equal to the
blank cut-off 0.0) with alphabet `-a` and beam size 1, decode does NOT report
`RanOutOfBeam`: the zero label probability passes the non-strict label cut-off check,
the beam survives, renormalization divides zero by zero, and the call returns the
partial result `(["a"], [NaN])`. -/
theorem C1_counterexample :
    beam_search [1, 2] [[F.fin 0, F.fin 0]] ['-', 'a'] 1 =
      .ok ["a"] [F.nan] ∧
    beam_search [1, 2] [[F.fin 0, F.fin 0]] ['-', 'a'] 1 ≠
      .err .RanOutOfBeam := by
  constructor
  · decide
  · decide

/-- C1, amended: a matrix row whose entries all equal the blank cut-off does not
exhaust the beam.  Whenever the beam size is at least 1 and every row has at least two
entries none of which compares strictly below the cut-off 0.0 (so in particular on
all-zero rows), `beam_search` never reports `RanOutOfBeam`: every hypothesis always
re-emits at least one label extension because the label cut-off check is non-strict. -/
theorem C1_theorem (shape : List Nat) (probs : List (List F)) (alphabet : List Char)
    (beam_size : Nat) (hbs : 1 ≤ beam_size)
    (hrows : ∀ row ∈ probs, 2 ≤ row.length ∧ ∀ x ∈ row, F.ltB x (F.fin 0) = false) :
    beam_search shape probs alphabet beam_size ≠ .err .RanOutOfBeam := by
  unfold beam_search
  split
  · simp
  · split
    · simp
    · cases hL : runLoop (SuffixTree.new (alphabet.length - 1)) [initPoint]
          beam_size probs 0 with
      | panicked => simp
      | failed e =>
        intro h
        simp only [LoopRes.failed.injEq, DecodeResult.err.injEq] at h
        subst h
        exact runLoop_ne_ranOut probs _ _ beam_size 0 (by simp) hbs hrows hL
      | next tree beam =>
        cases hF : finalize tree alphabet beam with
        | none => simp [hF]
        | some r => simp [hF]

/-- C1, witness: the amended theorem applied to a concrete two-row all-zero matrix. -/
theorem C1_witness :
    beam_search [2, 2] [[F.fin 0, F.fin 0], [F.fin 0, F.fin 0]] ['-', 'a'] 1 ≠
      .err .RanOutOfBeam :=
  C1_theorem [2, 2] [[F.fin 0, F.fin 0], [F.fin 0, F.fin 0]] ['-', 'a'] 1
    (by decide) (by decide)

/-- C2, counterexample: expanding the initial hypothesis over the row `[0, 0]` (both
entries exactly the cut-off 0.0) emits a label extension for label 0 — a new node is
created and a hypothesis for it pushed — even though `pr[1]` does not strictly exceed
the cut-off, contradicting the claim that such a label is not expanded.  (The blank
part behaves as claimed: no blank extension appears.) -/
theorem C2_counterexample :
    expandOne (SuffixTree.new 1) initPoint [F.fin 0, F.fin 0] 0 =
      some (⟨1, [⟨ROOT_NODE, 0, 0⟩]⟩,
        [{ node := 0, state := 0, label_prob := F.fin 0, gap_prob := F.fin 0 }]) := by
  decide

/-- C2, amended: a label extension for label `l` is emitted whenever `pr[l+1]` is NOT
strictly below the cut-off (equality included; the skip-check of the source is
strict-below), and whenever the label loop reaches a label it emits at least one
hypothesis; the blank extension is emitted exactly when `pr[0]` strictly exceeds the
cut-off; entries strictly below the cut-off are skipped. -/
theorem C2_theorem :
    (∀ (tree : SuffixTree) (sp : SearchPoint) (tip : Option Nat) (idx l : Nat)
       (pr_b : F), (labelStep tree sp tip idx l pr_b).2 ≠ [])
    ∧ (∀ (tree : SuffixTree) (sp : SearchPoint) (idx : Nat) (rest : List F)
       (r : SuffixTree × List SearchPoint),
       expandOne tree sp (F.fin 0 :: rest) idx = some r →
       r.2 = (expandLabels tree sp (tree.label sp.node) idx rest 0).2)
    ∧ (∀ (tree : SuffixTree) (sp : SearchPoint) (idx : Nat) (pr0 : F) (rest : List F)
       (r : SuffixTree × List SearchPoint),
       F.ltB beam_cut_threshold pr0 = true →
       expandOne tree sp (pr0 :: rest) idx = some r →
       r.2.head? = some { node := sp.node, state := sp.state, label_prob := F.fin 0,
                          gap_prob := (sp.label_prob.add sp.gap_prob).mul pr0 })
    ∧ (∀ (tree : SuffixTree) (sp : SearchPoint) (tip : Option Nat) (idx : Nat)
       (rest : List F) (l : Nat) (pr_b : F),
       F.ltB pr_b beam_cut_threshold = true →
       expandLabels tree sp tip idx (pr_b :: rest) l =
         expandLabels tree sp tip idx rest (l + 1)) := by
  refine ⟨fun tree sp tip idx l pr_b => labelStep_snd_ne_nil tree sp tip idx l pr_b,
    ?_, ?_, ?_⟩
  · intro tree sp idx rest r hr
    unfold expandOne at hr
    simp only [Option.some.injEq] at hr
    subst hr
    have : F.ltB beam_cut_threshold (F.fin 0) = false := by decide
    simp [this]
  · intro tree sp idx pr0 rest r hpos hr
    unfold expandOne at hr
    simp only [Option.some.injEq] at hr
    subst hr
    simp [hpos]
  · intro tree sp tip idx rest l pr_b hlt
    simp only [expandLabels, hlt, if_true]

/-- C2, witness: the skip branch of the amended theorem applied to a concrete entry
strictly below the cut-off. -/
theorem C2_witness :
    expandLabels (SuffixTree.new 1) initPoint none 0 [F.fin (-1), F.fin 1] 0 =
      expandLabels (SuffixTree.new 1) initPoint none 0 [F.fin 1] 1 :=
  C2_theorem.2.2.2 (SuffixTree.new 1) initPoint none 0 [F.fin 1] 0 (F.fin (-1))
    (by decide)

/-- C3, counterexample: in the store with chain ROOT → 0 → 1 (both edges label 0), the
hypothesis `pointA` at node 0 has tip label 0 and gap probability exactly 0, yet
expanding it over the row `[0, 1]` emits a hypothesis at the existing child node 1
(with `label_prob = gap_prob * pr[1] = 0`): the child emission is not conditional on
`gap_prob > 0` when the child already exists. -/
theorem C3_counterexample :
    treeAA.1.label pointA.node = some 0 ∧ pointA.gap_prob = F.fin 0 ∧
    expandOne treeAA.1 pointA [F.fin 0, F.fin 1] 5 =
      some (treeAA.1,
        [{ node := pointA.node, state := 0, label_prob := F.fin 1, gap_prob := F.fin 0 },
         { node := treeAA.2, state := 0, label_prob := F.fin 0, gap_prob := F.fin 0 }]) := by
  refine ⟨by decide, by decide, by decide⟩

/-- C3, amended: in the tip-label case (`l` equal to the hypothesis's tip), the
hypothesis at the child carrying `label_prob = gap_prob * pr[l+1]`, `gap_prob = 0` is
emitted iff the child for `(node, l)` already exists OR `gap_prob > 0`; exactly the
stay hypothesis is emitted iff the child is absent and `gap_prob` is not positive; and
a new node is created (the store changes) iff the child is absent and `gap_prob > 0`. -/
theorem C3_theorem (tree : SuffixTree) (sp : SearchPoint) (idx l : Nat) (pr_b : F) :
    ((labelStep tree sp (some l) idx l pr_b).2.length = 2 ↔
      ((tree.get_child sp.node l).isSome = true ∨ F.ltB (F.fin 0) sp.gap_prob = true))
    ∧ ((labelStep tree sp (some l) idx l pr_b).2.length = 1 ↔
      (tree.get_child sp.node l = none ∧ F.ltB (F.fin 0) sp.gap_prob = false))
    ∧ ((labelStep tree sp (some l) idx l pr_b).1 = tree ↔
      ¬(tree.get_child sp.node l = none ∧ F.ltB (F.fin 0) sp.gap_prob = true))
    ∧ (∀ p ∈ (labelStep tree sp (some l) idx l pr_b).2, p.node ≠ sp.node →
        p.label_prob = sp.gap_prob.mul pr_b ∧ p.gap_prob = F.fin 0) := by
  unfold labelStep
  rw [if_pos rfl]
  cases hgc : tree.get_child sp.node l with
  | some c =>
    refine ⟨by simp, by simp, by simp, ?_⟩
    intro p hp2 hne
    simp only [List.mem_cons, List.not_mem_nil, or_false] at hp2
    rcases hp2 with h | h
    · subst h
      exact absurd rfl hne
    · subst h
      exact ⟨rfl, rfl⟩
  | none =>
    dsimp only
    split
    · next hgap =>
      refine ⟨by simp [hgap], by simp [hgap], ?_, ?_⟩
      · refine ⟨fun h => ?_, fun h => absurd ⟨rfl, hgap⟩ h⟩
        have h2 := congrArg (fun t => t.nodes.length) h
        simp [SuffixTree.add_node] at h2
      · intro p hp2 hne
        simp only [List.mem_cons, List.not_mem_nil, or_false] at hp2
        rcases hp2 with h | h
        · subst h; exact absurd rfl hne
        · subst h; exact ⟨rfl, rfl⟩
    · next hgap =>
      have hgap2 : F.ltB (F.fin 0) sp.gap_prob = false := by
        cases hq : F.ltB (F.fin 0) sp.gap_prob
        · rfl
        · exact absurd hq hgap
      refine ⟨by simp [hgap2], by simp [hgap2], by simp [hgap2], ?_⟩
      intro p hp2 hne
      simp only [List.mem_cons, List.not_mem_nil, or_false] at hp2
      subst hp2
      exact absurd rfl hne

/-- C3, witness: the amended theorem applied to the concrete store with an existing
child and a zero-gap hypothesis. -/
theorem C3_witness :
    (labelStep treeAA.1 pointA (some 0) 5 0 (F.fin 1)).2.length = 2 :=
  (C3_theorem treeAA.1 pointA 5 0 (F.fin 1)).1.mpr (Or.inl (by decide))

/-- C4, counterexample: on a non-two-dimensional input shape the call does not return
one of the closed set of result variants: it aborts through the `assert_eq!` panic
(implicit unwinding), so the rejection is not reported as a result value. -/
theorem C4_counterexample :
    beam_search [1, 1, 1] [[F.fin 1]] ['-', 'a'] 1 = .panicked := by
  decide

/-- C4, amended: a non-two-dimensional input shape is rejected before the loop starts,
but by the `assert_eq!` panic rather than by an error variant; moreover no call of
`beam_search` ever returns the `InvalidEnvelope` error variant (it is declared but
never constructed). -/
theorem C4_theorem :
    (∀ (shape : List Nat) (probs : List (List F)) (alphabet : List Char)
       (beam_size : Nat), shape.length ≠ 2 →
       beam_search shape probs alphabet beam_size = .panicked)
    ∧ (∀ (shape : List Nat) (probs : List (List F)) (alphabet : List Char)
       (beam_size : Nat) (e : SearchError),
       beam_search shape probs alphabet beam_size = .err e →
       e ≠ .InvalidEnvelope) := by
  constructor
  · intro shape probs alphabet bs h
    unfold beam_search
    rw [if_pos h]
  · intro shape probs alphabet bs e h hbad
    subst hbad
    unfold beam_search at h
    split at h
    · exact absurd h (by simp)
    · split at h
      · exact absurd h (by simp)
      · cases hL : runLoop (SuffixTree.new (alphabet.length - 1)) [initPoint]
            bs probs 0 with
        | panicked => rw [hL] at h; simp at h
        | failed e2 =>
          rw [hL] at h
          simp only [DecodeResult.err.injEq] at h
          subst h
          rcases runLoop_failed_kind probs _ _ _ _ _ hL with h2 | h2 <;> simp at h2
        | next tree beam =>
          rw [hL] at h
          cases hF : finalize tree alphabet beam with
          | none => simp [hF] at h
          | some r => simp [hF] at h

/-- C4, witness: the amended theorem applied to a one-dimensional shape. -/
theorem C4_witness : beam_search [5] [] ['-'] 1 = .panicked :=
  C4_theorem.1 [5] [] ['-'] 1 (by decide)

/-- C5: a NaN probability that reaches the ranking comparison makes decode fail with
`IncomparableValues` and no partial result (concrete instance: a NaN label entry),
and conversely whenever every hypothesis entering the ranking has finite (hence
pairwise comparable) components, the ranking step never raises this error. -/
theorem C5_theorem :
    beam_search [1, 2] [[F.fin (mkRat 1 2), F.nan]] ['-', 'a'] 2 = .err .IncomparableValues
    ∧ ∀ (tree : SuffixTree) (beam : List SearchPoint) (row : List F) (idx bs : Nat),
      (∀ sp ∈ beam, sp.label_prob.isFin = true ∧ sp.gap_prob.isFin = true) →
      (∀ x ∈ row, x.isFin = true) →
      stepRow tree beam row idx bs ≠ .failed .IncomparableValues :=
  ⟨by decide, fun tree beam row idx bs h1 h2 =>
    stepRow_ne_incomparable tree beam row idx bs h1 h2⟩

/-- C5, witness: the comparable-case direction applied to a concrete finite beam and
row. -/
theorem C5_witness :
    stepRow (SuffixTree.new 1) [initPoint] [F.fin 1, F.fin 1] 0 1 ≠
      .failed .IncomparableValues :=
  C5_theorem.2 (SuffixTree.new 1) [initPoint] [F.fin 1, F.fin 1] 0 1
    (by decide) (by decide)

/-- C10: calling `beam_search` with an empty alphabet (violating the precondition that
the alphabet length is at least 1) does not produce any of the three decode-failure
variants: the unsigned subtraction `alphabet.len() - 1` underflows and the call aborts
with a panic (the debug-profile overflow check) before the loop starts. -/
theorem C10_theorem (shape : List Nat) (probs : List (List F)) (beam_size : Nat)
    (h : shape.length = 2) :
    beam_search shape probs [] beam_size = .panicked := by
  unfold beam_search
  rw [if_neg (by simp [h]), if_pos (by decide)]

/-- C10, witness: the empty-alphabet panic at a concrete shape and matrix. -/
theorem C10_witness : beam_search [0, 0] [] [] 3 = .panicked :=
  C10_theorem [0, 0] [] 3 rfl

theorem finalize_append (tree : SuffixTree) (alphabet : List Char)
    (xs ys : List SearchPoint) :
    finalize tree alphabet (xs ++ ys) =
      match finalize tree alphabet xs, finalize tree alphabet ys with
      | some a, some b => some (a.1 ++ b.1, a.2 ++ b.2)
      | _, _ => none := by
  induction xs with
  | nil =>
    simp only [List.nil_append]
    cases hy : finalize tree alphabet ys with
    | none => simp [finalize]
    | some b => simp [finalize]
  | cons sp rest ih =>
    simp only [List.cons_append, finalize]
    split
    · exact ih
    · cases hrec : reconstruct tree alphabet sp.node with
      | none => simp
      | some s =>
        simp only [List.append_eq]
        rw [ih]
        cases hr : finalize tree alphabet rest with
        | none => cases hy : finalize tree alphabet ys <;> simp
        | some p => cases hy : finalize tree alphabet ys <;> simp

theorem runLoop_single (tree : SuffixTree) (beam : List SearchPoint) (bs : Nat)
    (row : List F) (idx : Nat) :
    runLoop tree beam bs [row] idx =
      match stepRow tree beam row idx bs with
      | .panicked => .panicked
      | .failed e => .failed e
      | .next t2 b2 => .next t2 b2 := by
  unfold runLoop
  cases stepRow tree beam row idx bs <;> simp [runLoop]

theorem stepRow_cons (tree : SuffixTree) (beam : List SearchPoint) (row : List F)
    (idx : Nat) (r : SuffixTree × List SearchPoint) (s0 : SearchPoint)
    (ss : List SearchPoint) (n : Nat)
    (hE : expandRow tree beam row idx = some r)
    (hN : hasNans (mergeAdjacent (sortByNode r.2)) = false)
    (hS : sortByProb (mergeAdjacent (sortByNode r.2)) = s0 :: ss) :
    stepRow tree beam row idx (n + 1) =
      .next r.1 ((s0 :: ss.take n).map fun sp =>
        { sp with label_prob := sp.label_prob.div s0.probability
                  gap_prob := sp.gap_prob.div s0.probability }) := by
  unfold stepRow
  rw [hE]
  simp only [hN, hS, List.take_succ_cons, Bool.false_eq_true, if_false]

theorem beam_search_single (shape : List Nat) (row : List F) (alphabet : List Char)
    (n : Nat) (r : SuffixTree × List SearchPoint) (s0 : SearchPoint)
    (ss : List SearchPoint)
    (hsh : shape.length = 2) (hal : 1 ≤ alphabet.length)
    (hE : expandRow (SuffixTree.new (alphabet.length - 1)) [initPoint] row 0 = some r)
    (hN : hasNans (mergeAdjacent (sortByNode r.2)) = false)
    (hS : sortByProb (mergeAdjacent (sortByNode r.2)) = s0 :: ss) :
    beam_search shape [row] alphabet (n + 1) =
      match finalize r.1 alphabet ((s0 :: ss.take n).map fun sp =>
        { sp with label_prob := sp.label_prob.div s0.probability
                  gap_prob := sp.gap_prob.div s0.probability }) with
      | none => .panicked
      | some p => .ok p.1 p.2 := by
  unfold beam_search
  rw [if_neg (by omega), if_neg (by omega), runLoop_single,
    stepRow_cons _ _ _ _ r s0 ss n hE hN hS]

/-- C9, counterexample: on the fixed matrix `[[3/4,1/4],[1/4,0],[0,0],[0,0]]` with
alphabet `-a` and beam sizes 1 ≤ 2, decode with beam size 1 succeeds and returns the
best score NaN, while decode with beam size 2 fails with `IncomparableValues` and
returns no score at all: increasing the beam size does not yield a greater-or-equal
best score (the larger beam keeps a second all-zero hypothesis alive, so the NaN
probabilities produced by the zero renormalization reach a ranking comparison). -/
theorem C9_counterexample :
    beam_search [4, 2] [[F.fin (mkRat 3 4), F.fin (mkRat 1 4)],
        [F.fin (mkRat 1 4), F.fin 0], [F.fin 0, F.fin 0], [F.fin 0, F.fin 0]]
      ['-', 'a'] 1 = .ok ["a"] [F.nan] ∧
    beam_search [4, 2] [[F.fin (mkRat 3 4), F.fin (mkRat 1 4)],
        [F.fin (mkRat 1 4), F.fin 0], [F.fin 0, F.fin 0], [F.fin 0, F.fin 0]]
      ['-', 'a'] 2 = .err .IncomparableValues :=
  ⟨by decide, by decide⟩

/-- C9, amended: beam-size monotonicity of the best score does not hold in general
(see the counterexample: a larger beam can turn a successful decode into an
`IncomparableValues` failure); on single-timestep matrices it holds in the strong
form: whenever two beam sizes `b1 ≤ b2` both produce a nonempty score list, the best
(first) scores are equal, because pruning takes nested prefixes of one sorted
candidate list and renormalizes by the same top hypothesis. -/
theorem C9_theorem (shape : List Nat) (row : List F) (alphabet : List Char)
    (b1 b2 : Nat) (hb : b1 ≤ b2) (seqs1 seqs2 : List String) (s1 s2 : F)
    (r1 r2 : List F)
    (h1 : beam_search shape [row] alphabet b1 = .ok seqs1 (s1 :: r1))
    (h2 : beam_search shape [row] alphabet b2 = .ok seqs2 (s2 :: r2)) :
    s2 = s1 := by
  by_cases hsh : shape.length ≠ 2
  · unfold beam_search at h1
    rw [if_pos hsh] at h1
    simp at h1
  by_cases hal : alphabet.length < 1
  · unfold beam_search at h1
    rw [if_neg hsh, if_pos hal] at h1
    simp at h1
  cases hE : expandRow (SuffixTree.new (alphabet.length - 1)) [initPoint] row 0 with
  | none =>
    unfold beam_search at h1
    rw [if_neg hsh, if_neg hal, runLoop_single] at h1
    simp [stepRow, hE] at h1
  | some r =>
    cases hN : hasNans (mergeAdjacent (sortByNode r.2)) with
    | true =>
      unfold beam_search at h1
      rw [if_neg hsh, if_neg hal, runLoop_single] at h1
      simp [stepRow, hE, hN] at h1
    | false =>
      cases hS : sortByProb (mergeAdjacent (sortByNode r.2)) with
      | nil =>
        unfold beam_search at h1
        rw [if_neg hsh, if_neg hal, runLoop_single] at h1
        simp [stepRow, hE, hN, hS] at h1
      | cons s0 ss =>
        cases b1 with
        | zero =>
          unfold beam_search at h1
          rw [if_neg hsh, if_neg hal, runLoop_single] at h1
          simp [stepRow, hE, hN, hS] at h1
        | succ n1 =>
          cases b2 with
          | zero => omega
          | succ n2 =>
            rw [beam_search_single shape row alphabet n1 r s0 ss (by omega) (by omega)
              hE hN hS] at h1
            rw [beam_search_single shape row alphabet n2 r s0 ss (by omega) (by omega)
              hE hN hS] at h2
            cases hF1 : finalize r.1 alphabet ((s0 :: ss.take n1).map fun sp =>
                { sp with label_prob := sp.label_prob.div s0.probability
                          gap_prob := sp.gap_prob.div s0.probability }) with
            | none => rw [hF1] at h1; simp at h1
            | some p =>
              rw [hF1] at h1
              simp only [DecodeResult.ok.injEq] at h1
              have hB2 : (s0 :: ss.take n2).map (fun sp =>
                  { sp with label_prob := sp.label_prob.div s0.probability
                            gap_prob := sp.gap_prob.div s0.probability }) =
                  ((s0 :: ss.take n1).map fun sp =>
                    { sp with label_prob := sp.label_prob.div s0.probability
                              gap_prob := sp.gap_prob.div s0.probability }) ++
                  (((ss.drop n1).take (n2 - n1)).map fun sp =>
                    { sp with label_prob := sp.label_prob.div s0.probability
                              gap_prob := sp.gap_prob.div s0.probability }) := by
                have htk : ss.take n2 = ss.take n1 ++ (ss.drop n1).take (n2 - n1) := by
                  have h3 := List.take_add ss n1 (n2 - n1)
                  rw [show n1 + (n2 - n1) = n2 by omega] at h3
                  exact h3
                rw [htk]
                simp
              rw [hB2, finalize_append, hF1] at h2
              cases hFE : finalize r.1 alphabet (((ss.drop n1).take (n2 - n1)).map
                  fun sp =>
                    { sp with label_prob := sp.label_prob.div s0.probability
                              gap_prob := sp.gap_prob.div s0.probability }) with
              | none => rw [hFE] at h2; simp at h2
              | some q =>
                rw [hFE] at h2
                simp only [DecodeResult.ok.injEq] at h2
                have hcat : p.2 ++ q.2 = s2 :: r2 := h2.2
                rw [h1.2] at hcat
                simp only [List.cons_append, List.cons.injEq] at hcat
                exact hcat.1.symm

/-- C9, witness: the single-timestep amended theorem applied to a concrete row and
beam sizes 1 ≤ 2, both succeeding with best score 1. -/
theorem C9_witness : (F.fin 1 : F) = F.fin 1 :=
  C9_theorem [1, 2] [F.fin (mkRat 1 4), F.fin (mkRat 3 4)] ['-', 'a'] 1 2
    (by decide) ["a"] ["a"] (F.fin 1) (F.fin 1) [] [] (by decide) (by decide)

theorem findIdx_rootChildren (nodes : List TreeNode) : ∀ (k l i : Nat),
    RootChildrenFrom k nodes →
    nodes.findIdx? (fun nd => nd.parent == ROOT_NODE && nd.label == l) i =
      if k ≤ l ∧ l < k + nodes.length then some (i + (l - k)) else none := by
  induction nodes with
  | nil =>
    intro k l i _
    rw [List.findIdx?_nil, if_neg (by simp only [List.length_nil]; omega)]
  | cons nd rest ih =>
    intro k l i hRC
    obtain ⟨hp, hlab, hrest⟩ := hRC
    rw [List.findIdx?_cons]
    by_cases hkl : k = l
    · rw [if_pos (by simp [hp, hlab, hkl])]
      rw [if_pos (by simp only [List.length_cons]; omega)]
      rw [show l - k = 0 by omega]
      simp
    · rw [if_neg (by simp [hp, hlab, hkl])]
      rw [ih (k + 1) l (i + 1) hrest]
      by_cases hb : k + 1 ≤ l ∧ l < k + 1 + rest.length
      · rw [if_pos hb, if_pos (by simp only [List.length_cons]; omega)]
        congr 1
        omega
      · rw [if_neg hb, if_neg (by simp only [List.length_cons]; omega)]

theorem get_child_rootChildren (tree : SuffixTree) (l : Nat)
    (hRC : RootChildrenFrom 0 tree.nodes) :
    tree.get_child ROOT_NODE l =
      if l < tree.nodes.length then some (Int.ofNat l) else none := by
  unfold SuffixTree.get_child
  rw [findIdx_rootChildren tree.nodes 0 l 0 hRC]
  by_cases hb : l < tree.nodes.length
  · rw [if_pos (by omega), if_pos hb]
    simp
  · rw [if_neg (by omega), if_neg hb]
    rfl

theorem rootChildren_append : ∀ (nodes : List TreeNode) (k t : Nat),
    RootChildrenFrom k nodes →
    RootChildrenFrom k (nodes ++ [⟨ROOT_NODE, k + nodes.length, t⟩]) := by
  intro nodes
  induction nodes with
  | nil =>
    intro k t _
    exact ⟨rfl, by simp, trivial⟩
  | cons nd rest ih =>
    intro k t hRC
    obtain ⟨hp, hlab, hrest⟩ := hRC
    refine ⟨hp, hlab, ?_⟩
    have := ih (k + 1) t hrest
    simpa [Nat.add_comm, Nat.add_assoc, Nat.add_left_comm] using this

theorem add01mul (q : ℚ) : ((F.fin 0).add (F.fin 1)).mul (F.fin q) = F.fin q := by
  show (F.fin (qadd 0 1)).mul (F.fin q) = F.fin q
  rw [qadd_eq_add]
  norm_num
  show F.fin (qmul 1 q) = F.fin q
  rw [qmul_eq_mul, one_mul]

theorem expandLabels_root (idx : Nat) (rest : List F) : ∀ (l : Nat) (tree : SuffixTree),
    RootChildrenFrom 0 tree.nodes → l ≤ tree.nodes.length →
    (∀ x ∈ rest, ∃ q : ℚ, x = F.fin q ∧ 0 ≤ q) →
    RootChildrenFrom 0 (expandLabels tree initPoint none idx rest l).1.nodes ∧
    (expandLabels tree initPoint none idx rest l).2.map (fun p => p.node) =
      (List.range' l rest.length).map Int.ofNat ∧
    (expandLabels tree initPoint none idx rest l).2.map (fun p => p.label_prob) = rest ∧
    ∀ p ∈ (expandLabels tree initPoint none idx rest l).2,
      p.gap_prob = F.fin 0 ∧ p.state = 0 := by
  induction rest with
  | nil =>
    intro l tree hRS hl _
    exact ⟨hRS, by simp [expandLabels], by simp [expandLabels], by simp [expandLabels]⟩
  | cons x rest ih =>
    intro l tree hRS hl hvals
    obtain ⟨q, hx, hq⟩ := hvals x (by simp)
    subst hx
    have hguard : F.ltB (F.fin q) beam_cut_threshold = false := by
      simp only [F.ltB, beam_cut_threshold, decide_eq_false_iff_not]
      exact not_lt.mpr hq
    rcases Nat.lt_or_ge l tree.nodes.length with hlt | hge
    · -- the child for label l already exists
      have hgc : tree.get_child initPoint.node l = some (Int.ofNat l) := by
        show tree.get_child ROOT_NODE l = _
        rw [get_child_rootChildren tree l hRS, if_pos hlt]
      have hstep : labelStep tree initPoint none idx l (F.fin q) =
          (tree, [{ node := Int.ofNat l, state := 0,
                    label_prob := F.fin q, gap_prob := F.fin 0 }]) := by
        unfold labelStep
        rw [if_neg (by simp)]
        rw [hgc]
        simp only [initPoint, add01mul]
      have hrec := ih (l + 1) tree hRS (by omega) (fun y hy => hvals y (by simp [hy]))
      constructor
      · simpa only [expandLabels, hguard, Bool.false_eq_true, if_false, hstep]
          using hrec.1
      refine ⟨?_, ?_, ?_⟩
      · simp only [expandLabels, hguard, Bool.false_eq_true, if_false, hstep,
          List.map_append, List.length_cons, List.range'_succ, List.map_cons,
          List.map_nil, hrec.2.1]
        simp
      · simp only [expandLabels, hguard, Bool.false_eq_true, if_false, hstep,
          List.map_append, List.map_cons, List.map_nil, hrec.2.2.1]
        simp
      · intro p hp
        simp only [expandLabels, hguard, Bool.false_eq_true, if_false, hstep,
          List.cons_append, List.nil_append, List.mem_cons] at hp
        rcases hp with h | h
        · subst h; exact ⟨rfl, rfl⟩
        · exact hrec.2.2.2 p h
    · -- the child for label l is created now, at position l
      have hleq : l = tree.nodes.length := by omega
      have hgc : tree.get_child initPoint.node l = none := by
        show tree.get_child ROOT_NODE l = _
        rw [get_child_rootChildren tree l hRS, if_neg (by omega)]
      have hstep : labelStep tree initPoint none idx l (F.fin q) =
          (⟨tree.alphabet_size, tree.nodes ++ [⟨ROOT_NODE, l, idx⟩]⟩,
           [{ node := Int.ofNat l, state := 0,
              label_prob := F.fin q, gap_prob := F.fin 0 }]) := by
        unfold labelStep
        rw [if_neg (by simp)]
        rw [hgc]
        simp only [initPoint, add01mul, SuffixTree.add_node]
        rw [← hleq]
      have hRS2 : RootChildrenFrom 0
          (⟨tree.alphabet_size, tree.nodes ++ [⟨ROOT_NODE, l, idx⟩]⟩ :
            SuffixTree).nodes := by
        have := rootChildren_append tree.nodes 0 idx hRS
        simpa [hleq] using this
      have hrec := ih (l + 1)
        ⟨tree.alphabet_size, tree.nodes ++ [⟨ROOT_NODE, l, idx⟩]⟩ hRS2
        (by simp [hleq]) (fun y hy => hvals y (by simp [hy]))
      constructor
      · simpa only [expandLabels, hguard, Bool.false_eq_true, if_false, hstep]
          using hrec.1
      refine ⟨?_, ?_, ?_⟩
      · simp only [expandLabels, hguard, Bool.false_eq_true, if_false, hstep,
          List.map_append, List.length_cons, List.range'_succ, List.map_cons,
          List.map_nil, hrec.2.1]
        simp
      · simp only [expandLabels, hguard, Bool.false_eq_true, if_false, hstep,
          List.map_append, List.map_cons, List.map_nil, hrec.2.2.1]
        simp
      · intro p hp
        simp only [expandLabels, hguard, Bool.false_eq_true, if_false, hstep,
          List.cons_append, List.nil_append, List.mem_cons] at hp
        rcases hp with h | h
        · subst h; exact ⟨rfl, rfl⟩
        · exact hrec.2.2.2 p h

theorem isort_of_pairwise (le : SearchPoint → SearchPoint → Bool) :
    ∀ l : List SearchPoint, List.Pairwise (fun a b => le a b = true) l →
    isort le l = l := by
  intro l
  induction l with
  | nil => intro _; rfl
  | cons x xs ih =>
    intro hp
    rw [List.pairwise_cons] at hp
    show insertOrd le x (isort le xs) = x :: xs
    rw [ih hp.2]
    cases xs with
    | nil => rfl
    | cons y ys =>
      unfold insertOrd
      rw [if_pos (hp.1 y (by simp))]

theorem isort_head_big (le : SearchPoint → SearchPoint → Bool) (x : SearchPoint)
    (l : List SearchPoint) (hx : ∀ y ∈ l, le x y = true) :
    isort le (x :: l) = x :: isort le l := by
  show insertOrd le x (isort le l) = _
  cases hs : isort le l with
  | nil => rfl
  | cons y ys =>
    unfold insertOrd
    rw [if_pos (hx y ((mem_isort le l y).mp (by rw [hs]; simp)))]

theorem mergeInto_pairwise_ne : ∀ (l : List SearchPoint) (a : SearchPoint),
    List.Pairwise (fun x y => x.node ≠ y.node) (a :: l) →
    mergeInto a l = a :: l := by
  intro l
  induction l with
  | nil => intro a _; rfl
  | cons b rest ih =>
    intro a hp
    unfold mergeInto
    rw [if_neg (by
      rw [List.pairwise_cons] at hp
      exact hp.1 b (by simp))]
    rw [ih b (by rw [List.pairwise_cons] at hp; exact hp.2)]

theorem mergeAdjacent_pairwise_ne (l : List SearchPoint)
    (hp : List.Pairwise (fun x y => x.node ≠ y.node) l) :
    mergeAdjacent l = l := by
  cases l with
  | nil => rfl
  | cons a rest => exact mergeInto_pairwise_ne rest a hp

theorem pairwise_lt_range'' : ∀ (n s : Nat), List.Pairwise (· < ·) (List.range' s n) := by
  intro n
  induction n with
  | zero => intro s; simp
  | succ m ih =>
    intro s
    rw [List.range'_succ]
    rw [List.pairwise_cons]
    exact ⟨fun b hb => by
      have := List.mem_range'_1.mp hb
      omega, ih (s + 1)⟩

theorem qadd_zero_left (q : ℚ) : qadd 0 q = q := by
  rw [qadd_eq_add, zero_add]

theorem qadd_zero_right (q : ℚ) : qadd q 0 = q := by
  rw [qadd_eq_add, add_zero]

theorem fdiv_zero_fin (q : ℚ) (h : q ≠ 0) : (F.fin 0).div (F.fin q) = F.fin 0 := by
  simp only [F.div, if_neg h]
  rw [qdiv_eq_div, zero_div]

theorem fdiv_self_fin (q : ℚ) (h : q ≠ 0) : (F.fin q).div (F.fin q) = F.fin 1 := by
  simp only [F.div, if_neg h]
  rw [qdiv_eq_div, div_self h]

theorem stepRow_dominated (tree : SuffixTree) (row : List F) (idx : Nat)
    (hRS : RootChildrenFrom 0 tree.nodes) (hdom : DomRow row) :
    ∃ tree2, stepRow tree [initPoint] row idx 1 = .next tree2 [initPoint] ∧
      RootChildrenFrom 0 tree2.nodes := by
  obtain ⟨q0, hhead, hq0, htail⟩ := hdom
  cases row with
  | nil => simp at hhead
  | cons pr0 rest =>
    simp only [List.head?_cons, Option.some.injEq] at hhead
    subst hhead
    simp only [List.tail_cons] at htail
    have hEL := expandLabels_root idx rest 0 tree hRS (by omega)
      (fun x hx => (htail x hx).imp (fun q hq => ⟨hq.1, hq.2.1⟩))
    set EL := expandLabels tree initPoint none idx rest 0 with hELdef
    have hguard : F.ltB beam_cut_threshold (F.fin q0) = true := by
      simp only [beam_cut_threshold, F.ltB, decide_eq_true_eq]
      exact hq0
    have hq0ne : q0 ≠ 0 := ne_of_gt hq0
    have htip : tree.label ROOT_NODE = none := by
      simp [SuffixTree.label]
    have hE : expandRow tree [initPoint] (F.fin q0 :: rest) idx =
        some (EL.1, (⟨ROOT_NODE, 0, F.fin 0, F.fin q0⟩ : SearchPoint) :: EL.2) := by
      have hone : expandOne tree initPoint (F.fin q0 :: rest) idx =
          some (EL.1, (⟨ROOT_NODE, 0, F.fin 0, F.fin q0⟩ : SearchPoint) :: EL.2) := by
        unfold expandOne
        dsimp only [initPoint]
        rw [htip, if_pos hguard]
        rw [show ((F.fin 0).add (F.fin 1)).mul (F.fin q0) = F.fin q0 from add01mul q0]
        rw [show (⟨ROOT_NODE, 0, F.fin 0, F.fin 1⟩ : SearchPoint) = initPoint from rfl]
        rw [← hELdef]
        simp
      unfold expandRow
      rw [hone]
      simp [expandRow]
    have hnodes : ((⟨ROOT_NODE, 0, F.fin 0, F.fin q0⟩ : SearchPoint) :: EL.2).map
        (fun p => p.node) = ROOT_NODE :: (List.range' 0 rest.length).map Int.ofNat := by
      simp only [List.map_cons, hEL.2.1]
    have hpairlt : List.Pairwise (fun a b : SearchPoint => a.node < b.node)
        ((⟨ROOT_NODE, 0, F.fin 0, F.fin q0⟩ : SearchPoint) :: EL.2) := by
      have h2 : List.Pairwise (· < ·)
          (((⟨ROOT_NODE, 0, F.fin 0, F.fin q0⟩ : SearchPoint) :: EL.2).map
            (fun p => p.node)) := by
        rw [hnodes]
        rw [List.pairwise_cons]
        constructor
        · intro b hb
          obtain ⟨k, _, hk⟩ := List.mem_map.mp hb
          rw [← hk]
          show ROOT_NODE < Int.ofNat k
          rw [ROOT_NODE]
          have hnn : (0:ℤ) ≤ Int.ofNat k := Int.ofNat_nonneg k
          omega
        · rw [List.pairwise_map]
          refine (pairwise_lt_range'' rest.length 0).imp ?_
          intro a b hab
          show Int.ofNat a < Int.ofNat b
          exact Int.ofNat_lt.mpr hab
      exact List.pairwise_map.mp h2
    have hsortnode : sortByNode ((⟨ROOT_NODE, 0, F.fin 0, F.fin q0⟩ : SearchPoint)
        :: EL.2) = (⟨ROOT_NODE, 0, F.fin 0, F.fin q0⟩ : SearchPoint) :: EL.2 :=
      isort_of_pairwise _ _ (hpairlt.imp (fun hab => by
        simp only [decide_eq_true_eq]
        omega))
    have hmerge : mergeAdjacent ((⟨ROOT_NODE, 0, F.fin 0, F.fin q0⟩ : SearchPoint)
        :: EL.2) = (⟨ROOT_NODE, 0, F.fin 0, F.fin q0⟩ : SearchPoint) :: EL.2 :=
      mergeAdjacent_pairwise_ne _ (hpairlt.imp (fun hab => by omega))
    have hfin : ∀ sp ∈ ((⟨ROOT_NODE, 0, F.fin 0, F.fin q0⟩ : SearchPoint) :: EL.2),
        sp.label_prob.isFin = true ∧ sp.gap_prob.isFin = true := by
      intro sp hsp
      rcases List.mem_cons.mp hsp with h | h
      · subst h; exact ⟨rfl, rfl⟩
      · have hlp : sp.label_prob ∈ rest := by
          rw [← hEL.2.2.1]
          exact List.mem_map_of_mem _ h
        obtain ⟨q, hq, _, _⟩ := htail sp.label_prob hlp
        have hgap := (hEL.2.2.2 sp h).1
        rw [hq, hgap]
        exact ⟨rfl, rfl⟩
    have hnans : hasNans ((⟨ROOT_NODE, 0, F.fin 0, F.fin q0⟩ : SearchPoint)
        :: EL.2) = false := hasNans_false_of_fin _ hfin
    have hsortprob : sortByProb ((⟨ROOT_NODE, 0, F.fin 0, F.fin q0⟩ : SearchPoint)
        :: EL.2) = (⟨ROOT_NODE, 0, F.fin 0, F.fin q0⟩ : SearchPoint)
        :: isort probGe EL.2 := by
      refine isort_head_big probGe _ EL.2 ?_
      intro y hy
      have hlp : y.label_prob ∈ rest := by
        rw [← hEL.2.2.1]
        exact List.mem_map_of_mem _ hy
      obtain ⟨q, hq, hq0le, hqlt⟩ := htail y.label_prob hlp
      have hgap := (hEL.2.2.2 y hy).1
      show (!(F.ltB _ y.probability)) = true
      unfold SearchPoint.probability
      rw [hq, hgap]
      show (!(F.ltB ((F.fin 0).add (F.fin q0)) ((F.fin q).add (F.fin 0)))) = true
      rw [show (F.fin 0).add (F.fin q0) = F.fin q0 by
        show F.fin (qadd 0 q0) = _
        rw [qadd_zero_left]]
      rw [show (F.fin q).add (F.fin 0) = F.fin q by
        show F.fin (qadd q 0) = _
        rw [qadd_zero_right]]
      simp only [F.ltB, Bool.not_eq_eq_eq_not, Bool.not_true,
        decide_eq_false_iff_not]
      exact not_lt.mpr (le_of_lt hqlt)
    refine ⟨EL.1, ?_, hEL.1⟩
    unfold stepRow
    rw [hE]
    simp only []
    rw [hsortnode, hmerge, hnans]
    simp only [Bool.false_eq_true, if_false]
    rw [hsortprob]
    simp only [List.take_succ_cons, List.take_zero, List.map_cons, List.map_nil]
    congr 2
    show (⟨ROOT_NODE, 0,
      (F.fin 0).div ((⟨ROOT_NODE, 0, F.fin 0, F.fin q0⟩ : SearchPoint)).probability,
      (F.fin q0).div ((⟨ROOT_NODE, 0, F.fin 0, F.fin q0⟩ : SearchPoint)).probability⟩ :
        SearchPoint) = initPoint
    unfold SearchPoint.probability
    show (⟨ROOT_NODE, 0, (F.fin 0).div ((F.fin 0).add (F.fin q0)),
      (F.fin q0).div ((F.fin 0).add (F.fin q0))⟩ : SearchPoint) = initPoint
    rw [show (F.fin 0).add (F.fin q0) = F.fin q0 by
      show F.fin (qadd 0 q0) = _
      rw [qadd_zero_left]]
    rw [fdiv_zero_fin q0 hq0ne, fdiv_self_fin q0 hq0ne]
    rfl

theorem runLoop_dominated (rows : List (List F)) : ∀ (tree : SuffixTree) (idx : Nat),
    RootChildrenFrom 0 tree.nodes → (∀ row ∈ rows, DomRow row) →
    ∃ tree2, runLoop tree [initPoint] 1 rows idx = .next tree2 [initPoint] := by
  induction rows with
  | nil => intro tree idx _ _; exact ⟨tree, rfl⟩
  | cons row rest ih =>
    intro tree idx hRS hrows
    obtain ⟨tree2, hstep, hRS2⟩ := stepRow_dominated tree row idx hRS
      (hrows row (by simp))
    obtain ⟨tree3, hloop⟩ := ih tree2 (idx + 1) hRS2 (fun r hr => hrows r (by simp [hr]))
    refine ⟨tree3, ?_⟩
    unfold runLoop
    rw [hstep]
    exact hloop

/-- C6: root exclusion at FINALIZE.  First part: on any matrix whose every row is
strictly dominated by a positive blank entry (all other entries finite, nonnegative
and strictly smaller) and beam size 1, only the root hypothesis survives every
timestep and decode returns the empty `sequences`/`scores` pair.  Second part: in
general, a surviving hypothesis still at `ROOT` contributes nothing to the output —
FINALIZE on a beam starting with a root hypothesis equals FINALIZE on the rest. -/
theorem C6_theorem :
    (∀ (shape : List Nat) (probs : List (List F)) (alphabet : List Char),
      shape.length = 2 → 1 ≤ alphabet.length → (∀ row ∈ probs, DomRow row) →
      beam_search shape probs alphabet 1 = .ok [] [])
    ∧ (∀ (tree : SuffixTree) (alphabet : List Char) (sp : SearchPoint)
       (rest : List SearchPoint), sp.node = ROOT_NODE →
       finalize tree alphabet (sp :: rest) = finalize tree alphabet rest) := by
  constructor
  · intro shape probs alphabet hsh hal hdom
    obtain ⟨tree2, hloop⟩ := runLoop_dominated probs
      (SuffixTree.new (alphabet.length - 1)) 0 trivial hdom
    unfold beam_search
    rw [if_neg (by omega), if_neg (by omega), hloop]
    simp [finalize, initPoint]
  · intro tree alphabet sp rest hsp
    simp only [finalize]
    rw [if_pos hsp]

/-- C6, witness: the domination theorem applied to a concrete two-row blank-dominated
matrix, and the root-skip equation at a concrete beam. -/
theorem C6_witness :
    beam_search [2, 2] [[F.fin (mkRat 3 4), F.fin (mkRat 1 4)],
      [F.fin (mkRat 1 2), F.fin (mkRat 1 4)]] ['-', 'a'] 1 = .ok [] [] :=
  C6_theorem.1 [2, 2] [[F.fin (mkRat 3 4), F.fin (mkRat 1 4)],
      [F.fin (mkRat 1 2), F.fin (mkRat 1 4)]] ['-', 'a'] rfl (by decide) (by
    intro row hrow
    simp only [List.mem_cons, List.not_mem_nil, or_false] at hrow
    rcases hrow with h | h
    · subst h
      refine ⟨mkRat 3 4, rfl, by decide, ?_⟩
      intro x hx
      simp only [List.tail_cons, List.mem_cons, List.not_mem_nil, or_false] at hx
      subst hx
      exact ⟨mkRat 1 4, rfl, by decide, by decide⟩
    · subst h
      refine ⟨mkRat 1 2, rfl, by decide, ?_⟩
      intro x hx
      simp only [List.tail_cons, List.mem_cons, List.not_mem_nil, or_false] at hx
      subst hx
      exact ⟨mkRat 1 4, rfl, by decide, by decide⟩)

theorem fadd_nonneg {a b : F} (ha : ∃ q : ℚ, a = F.fin q ∧ 0 ≤ q)
    (hb : ∃ q : ℚ, b = F.fin q ∧ 0 ≤ q) :
    ∃ q : ℚ, a.add b = F.fin q ∧ 0 ≤ q := by
  obtain ⟨qa, rfl, hqa⟩ := ha
  obtain ⟨qb, rfl, hqb⟩ := hb
  refine ⟨qa + qb, ?_, by positivity⟩
  show F.fin (qadd qa qb) = _
  rw [qadd_eq_add]

theorem fmul_nonneg {a b : F} (ha : ∃ q : ℚ, a = F.fin q ∧ 0 ≤ q)
    (hb : ∃ q : ℚ, b = F.fin q ∧ 0 ≤ q) :
    ∃ q : ℚ, a.mul b = F.fin q ∧ 0 ≤ q := by
  obtain ⟨qa, rfl, hqa⟩ := ha
  obtain ⟨qb, rfl, hqb⟩ := hb
  refine ⟨qa * qb, ?_, by positivity⟩
  show F.fin (qmul qa qb) = _
  rw [qmul_eq_mul]

theorem wfPoint_probability {sp : SearchPoint} (h : WfPoint sp) :
    ∃ q : ℚ, sp.probability = F.fin q ∧ 0 ≤ q :=
  fadd_nonneg h.1 h.2

theorem labelStep_wf (tree : SuffixTree) (sp : SearchPoint) (tip : Option Nat)
    (idx l : Nat) (pr_b : F) (hsp : WfPoint sp)
    (hp : ∃ q : ℚ, pr_b = F.fin q ∧ 0 ≤ q) :
    ∀ p ∈ (labelStep tree sp tip idx l pr_b).2, WfPoint p := by
  intro p hp2
  obtain ⟨h1, h2⟩ := labelStep_shape tree sp tip idx l pr_b p hp2
  refine ⟨?_, ⟨0, h1, le_refl 0⟩⟩
  rcases h2 with h | h | h <;> rw [h]
  · exact fmul_nonneg hsp.1 hp
  · exact fmul_nonneg hsp.2 hp
  · exact fmul_nonneg (fadd_nonneg hsp.1 hsp.2) hp

theorem expandLabels_wf (sp : SearchPoint) (tip : Option Nat) (idx : Nat)
    (rest : List F) : ∀ (tree : SuffixTree) (l : Nat), WfPoint sp →
    (∀ x ∈ rest, ∃ q : ℚ, x = F.fin q ∧ 0 ≤ q) →
    ∀ p ∈ (expandLabels tree sp tip idx rest l).2, WfPoint p := by
  induction rest with
  | nil => intro tree l _ _ p hp2; simp [expandLabels] at hp2
  | cons pr_b rest' ih =>
    intro tree l hsp hrow p hp2
    unfold expandLabels at hp2
    split at hp2
    · exact ih tree (l + 1) hsp (fun x hx => hrow x (by simp [hx])) p hp2
    · simp only [List.mem_append] at hp2
      rcases hp2 with h | h
      · exact labelStep_wf tree sp tip idx l pr_b hsp (hrow pr_b (by simp)) p h
      · exact ih _ (l + 1) hsp (fun x hx => hrow x (by simp [hx])) p h

theorem expandOne_wf (tree : SuffixTree) (sp : SearchPoint) (row : List F)
    (idx : Nat) (hsp : WfPoint sp)
    (hrow : ∀ x ∈ row, ∃ q : ℚ, x = F.fin q ∧ 0 ≤ q) :
    ∀ r, expandOne tree sp row idx = some r → ∀ p ∈ r.2, WfPoint p := by
  match row with
  | [] => intro r hr; simp [expandOne] at hr
  | pr0 :: rest =>
    intro r hr
    unfold expandOne at hr
    simp only [Option.some.injEq] at hr
    subst hr
    intro p hp2
    simp only [List.mem_append] at hp2
    rcases hp2 with h | h
    · split at h
      · simp only [List.mem_cons, List.not_mem_nil, or_false] at h
        subst h
        exact ⟨⟨0, rfl, le_refl 0⟩,
          fmul_nonneg (fadd_nonneg hsp.1 hsp.2) (hrow pr0 (by simp))⟩
      · simp at h
    · exact expandLabels_wf sp (tree.label sp.node) idx rest tree 0 hsp
        (fun x hx => hrow x (by simp [hx])) p h

theorem expandRow_wf (beam : List SearchPoint) (row : List F) (idx : Nat) :
    ∀ (tree : SuffixTree), (∀ sp ∈ beam, WfPoint sp) →
    (∀ x ∈ row, ∃ q : ℚ, x = F.fin q ∧ 0 ≤ q) →
    ∀ r, expandRow tree beam row idx = some r → ∀ p ∈ r.2, WfPoint p := by
  induction beam with
  | nil =>
    intro tree _ _ r hr
    simp only [expandRow, Option.some.injEq] at hr
    subst hr
    intro p hp2
    simp at hp2
  | cons sp rest ih =>
    intro tree hbeam hrow r hr
    cases h1 : expandOne tree sp row idx with
    | none => simp [expandRow, h1] at hr
    | some r1 =>
      cases h2 : expandRow r1.1 rest row idx with
      | none => simp [expandRow, h1, h2] at hr
      | some r2 =>
        simp only [expandRow, h1, h2, Option.some.injEq] at hr
        subst hr
        intro p hp2
        simp only [List.mem_append] at hp2
        rcases hp2 with h | h
        · exact expandOne_wf tree sp row idx (hbeam sp (by simp)) hrow r1 h1 p h
        · exact ih r1.1 (fun x hx => hbeam x (by simp [hx])) hrow r2 h2 p h

theorem mergeInto_wf (l : List SearchPoint) : ∀ a : SearchPoint, WfPoint a →
    (∀ sp ∈ l, WfPoint sp) → ∀ p ∈ mergeInto a l, WfPoint p := by
  induction l with
  | nil =>
    intro a ha _ p hp2
    simp only [mergeInto, List.mem_cons, List.not_mem_nil, or_false] at hp2
    subst hp2
    exact ha
  | cons b rest ih =>
    intro a ha hl p hp2
    unfold mergeInto at hp2
    split at hp2
    · have hb := hl b (by simp)
      exact ih _ ⟨fadd_nonneg ha.1 hb.1, fadd_nonneg ha.2 hb.2⟩
        (fun q hq => hl q (by simp [hq])) p hp2
    · simp only [List.mem_cons] at hp2
      rcases hp2 with h2 | h2
      · subst h2; exact ha
      · exact ih _ (hl b (by simp)) (fun q hq => hl q (by simp [hq])) p h2

theorem mergeAdjacent_wf (l : List SearchPoint) (h : ∀ sp ∈ l, WfPoint sp) :
    ∀ p ∈ mergeAdjacent l, WfPoint p := by
  intro p hp2
  cases l with
  | nil => simp [mergeAdjacent] at hp2
  | cons a rest =>
    exact mergeInto_wf rest a (h a (by simp)) (fun q hq => h q (by simp [hq])) p hp2

theorem isFin_exists {x : F} (h : x.isFin = true) : ∃ q : ℚ, x = F.fin q := by
  cases x with
  | fin q => exact ⟨q, rfl⟩
  | nan => simp [F.isFin] at h
  | inf => simp [F.isFin] at h
  | ninf => simp [F.isFin] at h

theorem wfPoint_isFin {sp : SearchPoint} (h : WfPoint sp) :
    sp.probability.isFin = true := by
  obtain ⟨q, hq, _⟩ := wfPoint_probability h
  rw [hq]
  rfl

theorem probGe_total {a b : SearchPoint} (ha : a.probability.isFin = true)
    (hb : b.probability.isFin = true) : probGe a b = true ∨ probGe b a = true := by
  obtain ⟨qa, hqa⟩ := isFin_exists ha
  obtain ⟨qb, hqb⟩ := isFin_exists hb
  simp only [probGe, hqa, hqb, F.ltB, Bool.not_eq_eq_eq_not, Bool.not_true,
    decide_eq_false_iff_not]
  rcases le_total qa qb with h | h
  · exact Or.inr (not_lt.mpr h)
  · exact Or.inl (not_lt.mpr h)

theorem probGe_trans {a b c : SearchPoint} (ha : a.probability.isFin = true)
    (hb : b.probability.isFin = true) (hc : c.probability.isFin = true)
    (h1 : probGe a b = true) (h2 : probGe b c = true) : probGe a c = true := by
  obtain ⟨qa, hqa⟩ := isFin_exists ha
  obtain ⟨qb, hqb⟩ := isFin_exists hb
  obtain ⟨qc, hqc⟩ := isFin_exists hc
  simp only [probGe, hqa, hqb, hqc, F.ltB, Bool.not_eq_eq_eq_not, Bool.not_true,
    decide_eq_false_iff_not] at h1 h2 ⊢
  exact not_lt.mpr (le_trans (not_lt.mp h2) (not_lt.mp h1))

theorem leB_of_probGe {a b : SearchPoint} (ha : a.probability.isFin = true)
    (hb : b.probability.isFin = true) (h : probGe a b = true) :
    F.leB b.probability a.probability = true := by
  obtain ⟨qa, hqa⟩ := isFin_exists ha
  obtain ⟨qb, hqb⟩ := isFin_exists hb
  simp only [probGe, hqa, hqb, F.ltB, Bool.not_eq_eq_eq_not, Bool.not_true,
    decide_eq_false_iff_not] at h
  simp only [F.leB, hqa, hqb, decide_eq_true_eq]
  exact not_lt.mp h

theorem insertOrd_pairwise (le : SearchPoint → SearchPoint → Bool) (x : SearchPoint) :
    ∀ l : List SearchPoint,
    List.Pairwise (fun a b => le a b = true) l →
    (∀ b ∈ l, le x b = true ∨ le b x = true) →
    (∀ b ∈ l, ∀ c ∈ l, le x b = true → le b c = true → le x c = true) →
    List.Pairwise (fun a b => le a b = true) (insertOrd le x l) := by
  intro l
  induction l with
  | nil => intro _ _ _; simp [insertOrd]
  | cons y rest ih =>
    intro hsort htot htrans
    rw [List.pairwise_cons] at hsort
    unfold insertOrd
    by_cases hxy : le x y = true
    · rw [if_pos hxy, List.pairwise_cons]
      refine ⟨?_, List.pairwise_cons.mpr hsort⟩
      intro b hb
      rcases List.mem_cons.mp hb with h | h
      · subst h; exact hxy
      · exact htrans y (by simp) b (by simp [h]) hxy (hsort.1 b h)
    · rw [if_neg hxy, List.pairwise_cons]
      constructor
      · intro b hb
        rw [mem_insertOrd] at hb
        rcases hb with h | h
        · subst h
          rcases htot y (by simp) with h1 | h1
          · exact absurd h1 hxy
          · exact h1
        · exact hsort.1 b h
      · exact ih hsort.2 (fun b hb => htot b (by simp [hb]))
          (fun b hb c hc => htrans b (by simp [hb]) c (by simp [hc]))

theorem isort_pairwise (le : SearchPoint → SearchPoint → Bool) :
    ∀ l : List SearchPoint,
    (∀ a ∈ l, ∀ b ∈ l, le a b = true ∨ le b a = true) →
    (∀ a ∈ l, ∀ b ∈ l, ∀ c ∈ l, le a b = true → le b c = true → le a c = true) →
    List.Pairwise (fun a b => le a b = true) (isort le l) := by
  intro l
  induction l with
  | nil => intro _ _; exact List.Pairwise.nil
  | cons x xs ih =>
    intro htot htrans
    show List.Pairwise _ (insertOrd le x (isort le xs))
    refine insertOrd_pairwise le x (isort le xs)
      (ih (fun a ha b hb => htot a (by simp [ha]) b (by simp [hb]))
          (fun a ha b hb c hc =>
            htrans a (by simp [ha]) b (by simp [hb]) c (by simp [hc]))) ?_ ?_
    · intro b hb
      rw [mem_isort] at hb
      exact htot x (by simp) b (by simp [hb])
    · intro b hb c hc
      rw [mem_isort] at hb
      rw [mem_isort] at hc
      exact htrans x (by simp) b (by simp [hb]) c (by simp [hc])

theorem nonIncr_of_pairwise : ∀ l : List SearchPoint,
    (∀ sp ∈ l, sp.probability.isFin = true) →
    List.Pairwise (fun a b => probGe a b = true) l →
    nonIncreasingF (l.map SearchPoint.probability) = true := by
  intro l
  induction l with
  | nil => intro _ _; rfl
  | cons a tail ih =>
    intro hfin hp
    rw [List.pairwise_cons] at hp
    cases tail with
    | nil => rfl
    | cons b rest =>
      have h1 : F.leB b.probability a.probability = true :=
        leB_of_probGe (hfin a (by simp)) (hfin b (by simp)) (hp.1 b (by simp))
      have h2 := ih (fun sp hsp => hfin sp (by simp [List.mem_cons] at hsp ⊢; tauto))
        hp.2
      show (F.leB b.probability a.probability &&
        nonIncreasingF (b.probability :: rest.map SearchPoint.probability)) = true
      rw [h1, Bool.true_and]
      exact h2

theorem beam_bounds {beam : List SearchPoint} (hinv : InvBeam beam) :
    ∀ sp ∈ beam, ∃ q : ℚ, sp.probability = F.fin q ∧ 0 ≤ q ∧ q ≤ 1 := by
  obtain ⟨hwf, hsorted, h0, t, hbeam, h1⟩ := hinv
  intro sp hsp
  obtain ⟨q, hq, hq0⟩ := wfPoint_probability (hwf sp hsp)
  refine ⟨q, hq, hq0, ?_⟩
  subst hbeam
  rcases List.mem_cons.mp hsp with h | h
  · subst h
    rw [hq] at h1
    simp only [F.fin.injEq] at h1
    exact le_of_eq h1
  · rw [SortedBeam, List.pairwise_cons] at hsorted
    have := hsorted.1 sp h
    simp only [probGe, h1, hq, F.ltB, Bool.not_eq_eq_eq_not, Bool.not_true,
      decide_eq_false_iff_not] at this
    exact not_lt.mp this

theorem finalize_eq (tree : SuffixTree) (alphabet : List Char) :
    ∀ (beam : List SearchPoint) (r : List String × List F),
    finalize tree alphabet beam = some r →
    r.2 = (beam.filter fun sp => !decide (sp.node = ROOT_NODE)).map
        SearchPoint.probability ∧
    r.1.length = r.2.length := by
  intro beam
  induction beam with
  | nil =>
    intro r hr
    simp only [finalize, Option.some.injEq] at hr
    subst hr
    simp
  | cons sp rest ih =>
    intro r hr
    unfold finalize at hr
    by_cases hroot : sp.node = ROOT_NODE
    · rw [if_pos hroot] at hr
      have := ih r hr
      rw [List.filter_cons_of_neg (by simp [hroot])]
      exact this
    · rw [if_neg hroot] at hr
      cases hrec : reconstruct tree alphabet sp.node with
      | none => rw [hrec] at hr; cases hr
      | some s =>
        rw [hrec] at hr
        cases hfin : finalize tree alphabet rest with
        | none => rw [hfin] at hr; cases hr
        | some r0 =>
          rw [hfin, Option.some.injEq] at hr
          subst hr
          obtain ⟨hh1, hh2⟩ := ih r0 hfin
          rw [List.filter_cons_of_pos (by simp [hroot])]
          constructor
          · simp only [List.map_cons]
            rw [← hh1]
          · simp only [List.length_cons, hh2]

theorem wfPoint_prob_fin {sp : SearchPoint} (_h : WfPoint sp) :
    ∀ la ga : ℚ, sp.label_prob = F.fin la → sp.gap_prob = F.fin ga →
    sp.probability = F.fin (la + ga) := by
  intro la ga hla hga
  show sp.label_prob.add sp.gap_prob = _
  rw [hla, hga]
  show F.fin (qadd la ga) = _
  rw [qadd_eq_add]

theorem mergeInto_exists_pos : ∀ (l : List SearchPoint) (a : SearchPoint),
    (∀ p ∈ a :: l, WfPoint p) →
    (∃ x ∈ a :: l, ∃ q : ℚ, x.probability = F.fin q ∧ 0 < q) →
    ∃ y ∈ mergeInto a l, ∃ q : ℚ, y.probability = F.fin q ∧ 0 < q := by
  intro l
  induction l with
  | nil =>
    intro a _ hx
    obtain ⟨x, hxm, hq⟩ := hx
    simp only [List.mem_cons, List.not_mem_nil, or_false] at hxm
    subst hxm
    exact ⟨x, by simp [mergeInto], hq⟩
  | cons b rest ih =>
    intro a hwf hx
    unfold mergeInto
    by_cases hab : a.node = b.node
    · rw [if_pos hab]
      obtain ⟨⟨la, hla, hla0⟩, ⟨ga, hga, hga0⟩⟩ := hwf a (by simp)
      obtain ⟨⟨lb, hlb, hlb0⟩, ⟨gb, hgb, hgb0⟩⟩ := hwf b (by simp)
      have hcwf : WfPoint (⟨a.node, a.state, a.label_prob.add b.label_prob, a.gap_prob.add b.gap_prob⟩ : SearchPoint) := by
        constructor
        · exact ⟨la + lb, by
            show a.label_prob.add b.label_prob = _
            rw [hla, hlb]
            show F.fin (qadd la lb) = _
            rw [qadd_eq_add], by positivity⟩
        · exact ⟨ga + gb, by
            show a.gap_prob.add b.gap_prob = _
            rw [hga, hgb]
            show F.fin (qadd ga gb) = _
            rw [qadd_eq_add], by positivity⟩
      have hcprob : (⟨a.node, a.state, a.label_prob.add b.label_prob, a.gap_prob.add b.gap_prob⟩ : SearchPoint).probability = F.fin ((la + lb) + (ga + gb)) := by
        refine wfPoint_prob_fin hcwf (la + lb) (ga + gb) ?_ ?_
        · show a.label_prob.add b.label_prob = _
          rw [hla, hlb]
          show F.fin (qadd la lb) = _
          rw [qadd_eq_add]
        · show a.gap_prob.add b.gap_prob = _
          rw [hga, hgb]
          show F.fin (qadd ga gb) = _
          rw [qadd_eq_add]
      refine ih _ ?_ ?_
      · intro p hp2
        rcases List.mem_cons.mp hp2 with h | h
        · subst h; exact hcwf
        · exact hwf p (by simp [h])
      · obtain ⟨x, hxm, q, hq, hq0⟩ := hx
        simp only [List.mem_cons] at hxm
        rcases hxm with h | h | h
        · subst h
          refine ⟨_, by simp, (la + lb) + (ga + gb), hcprob, ?_⟩
          have hxa : x.probability = F.fin (la + ga) := wfPoint_prob_fin
            ⟨⟨la, hla, hla0⟩, ⟨ga, hga, hga0⟩⟩ la ga hla hga
          rw [hq] at hxa
          simp only [F.fin.injEq] at hxa
          have : 0 < la + ga := by rw [← hxa]; exact hq0
          linarith
        · subst h
          refine ⟨_, by simp, (la + lb) + (ga + gb), hcprob, ?_⟩
          have hxb : x.probability = F.fin (lb + gb) := wfPoint_prob_fin
            ⟨⟨lb, hlb, hlb0⟩, ⟨gb, hgb, hgb0⟩⟩ lb gb hlb hgb
          rw [hq] at hxb
          simp only [F.fin.injEq] at hxb
          have : 0 < lb + gb := by rw [← hxb]; exact hq0
          linarith
        · exact ⟨x, by simp [h], q, hq, hq0⟩
    · rw [if_neg hab]
      obtain ⟨x, hxm, q, hq, hq0⟩ := hx
      simp only [List.mem_cons] at hxm
      rcases hxm with h | h
      · subst h
        exact ⟨x, by simp, q, hq, hq0⟩
      · obtain ⟨y, hym, hy⟩ := ih b (fun p hp2 => hwf p (by
            simp only [List.mem_cons] at hp2 ⊢; tauto)) ⟨x, by simpa using h, q, hq, hq0⟩
        exact ⟨y, by simp [hym], hy⟩

theorem mergeAdjacent_exists_pos (l : List SearchPoint)
    (hwf : ∀ p ∈ l, WfPoint p)
    (hx : ∃ x ∈ l, ∃ q : ℚ, x.probability = F.fin q ∧ 0 < q) :
    ∃ y ∈ mergeAdjacent l, ∃ q : ℚ, y.probability = F.fin q ∧ 0 < q := by
  cases l with
  | nil => obtain ⟨x, hxm, _⟩ := hx; simp at hxm
  | cons a rest => exact mergeInto_exists_pos rest a hwf hx

theorem renorm_wf {sp : SearchPoint} (hwf : WfPoint sp) (qt : ℚ) (hqt : 0 < qt) :
    WfPoint { sp with label_prob := sp.label_prob.div (F.fin qt),
                      gap_prob := sp.gap_prob.div (F.fin qt) } := by
  obtain ⟨⟨la, hla, hla0⟩, ⟨ga, hga, hga0⟩⟩ := hwf
  have hne : qt ≠ 0 := ne_of_gt hqt
  constructor
  · refine ⟨la / qt, ?_, by positivity⟩
    show sp.label_prob.div (F.fin qt) = _
    rw [hla]
    simp only [F.div, if_neg hne]
    rw [qdiv_eq_div]
  · refine ⟨ga / qt, ?_, by positivity⟩
    show sp.gap_prob.div (F.fin qt) = _
    rw [hga]
    simp only [F.div, if_neg hne]
    rw [qdiv_eq_div]

theorem renorm_prob {sp : SearchPoint} (hwf : WfPoint sp) (qt : ℚ) (hqt : 0 < qt)
    (q : ℚ) (hq : sp.probability = F.fin q) :
    ({ sp with label_prob := sp.label_prob.div (F.fin qt),
               gap_prob := sp.gap_prob.div (F.fin qt) } : SearchPoint).probability =
      F.fin (q / qt) := by
  obtain ⟨⟨la, hla, hla0⟩, ⟨ga, hga, hga0⟩⟩ := hwf
  have hne : qt ≠ 0 := ne_of_gt hqt
  have hlaga : la + ga = q := by
    have := wfPoint_prob_fin ⟨⟨la, hla, hla0⟩, ⟨ga, hga, hga0⟩⟩ la ga hla hga
    rw [hq] at this
    simpa using this.symm
  show (sp.label_prob.div (F.fin qt)).add (sp.gap_prob.div (F.fin qt)) = _
  rw [hla, hga]
  simp only [F.div, if_neg hne]
  show F.fin (qadd (qdiv la qt) (qdiv ga qt)) = _
  rw [qadd_eq_add, qdiv_eq_div, qdiv_eq_div, div_add_div_same, hlaga]

theorem probGe_renorm {a b : SearchPoint} (qt : ℚ) (hqt : 0 < qt)
    (hwa : WfPoint a) (hwb : WfPoint b) (h : probGe a b = true) :
    probGe { a with label_prob := a.label_prob.div (F.fin qt),
                    gap_prob := a.gap_prob.div (F.fin qt) }
           { b with label_prob := b.label_prob.div (F.fin qt),
                    gap_prob := b.gap_prob.div (F.fin qt) } = true := by
  obtain ⟨qa, hqa, hqa0⟩ := wfPoint_probability hwa
  obtain ⟨qb, hqb, hqb0⟩ := wfPoint_probability hwb
  rw [probGe, renorm_prob hwa qt hqt qa hqa, renorm_prob hwb qt hqt qb hqb]
  rw [probGe, hqa, hqb] at h
  simp only [F.ltB, Bool.not_eq_eq_eq_not, Bool.not_true, decide_eq_false_iff_not]
    at h ⊢
  intro hlt
  apply h
  rw [div_eq_mul_inv, div_eq_mul_inv] at hlt
  exact lt_of_mul_lt_mul_right hlt (le_of_lt (inv_pos.mpr hqt))

theorem expandRow_head_blank (tree : SuffixTree) (h0 : SearchPoint)
    (t : List SearchPoint) (pr0 : F) (rest : List F) (idx : Nat)
    (r : SuffixTree × List SearchPoint) (hgt : F.ltB beam_cut_threshold pr0 = true)
    (hE : expandRow tree (h0 :: t) (pr0 :: rest) idx = some r) :
    (⟨h0.node, h0.state, F.fin 0, (h0.label_prob.add h0.gap_prob).mul pr0⟩ :
      SearchPoint) ∈ r.2 := by
  have hone : expandOne tree h0 (pr0 :: rest) idx = some
      ((expandLabels tree h0 (tree.label h0.node) idx rest 0).1,
        (⟨h0.node, h0.state, F.fin 0, (h0.label_prob.add h0.gap_prob).mul pr0⟩ :
          SearchPoint) :: (expandLabels tree h0 (tree.label h0.node) idx rest 0).2) := by
    simp only [expandOne]
    rw [if_pos hgt]
    simp
  cases h2 : expandRow
      (expandLabels tree h0 (tree.label h0.node) idx rest 0).1 t (pr0 :: rest) idx with
  | none =>
    simp only [expandRow, hone, h2] at hE
    exact Option.noConfusion hE
  | some r2 =>
    simp only [expandRow, hone, h2, Option.some.injEq] at hE
    rw [← hE]
    simp

theorem stepRow_pos (tree : SuffixTree) (beam : List SearchPoint) (row : List F)
    (idx bs : Nat) (tree2 : SuffixTree) (beam2 : List SearchPoint)
    (hinv : InvBeam beam) (hrow : PosRow row)
    (hstep : stepRow tree beam row idx bs = .next tree2 beam2) :
    InvBeam beam2 := by
  obtain ⟨hwf, hsorted, h0, t, hbeamEq, h0prob⟩ := hinv
  subst hbeamEq
  cases hE : expandRow tree (h0 :: t) row idx with
  | none =>
    simp only [stepRow, hE] at hstep
    exact LoopRes.noConfusion hstep
  | some r =>
    cases row with
    | nil =>
      rw [show expandRow tree (h0 :: t) [] idx = none from by
        simp [expandRow, expandOne]] at hE
      exact Option.noConfusion hE
    | cons pr0 prest =>
      obtain ⟨p0, hp0eq, hp0⟩ := hrow pr0 (by simp)
      have hgt : F.ltB beam_cut_threshold pr0 = true := by
        rw [hp0eq]
        simp only [beam_cut_threshold, F.ltB, decide_eq_true_eq]
        exact hp0
      have hptmem := expandRow_head_blank tree h0 t pr0 prest idx r hgt hE
      have h0prob2 : h0.label_prob.add h0.gap_prob = F.fin 1 := h0prob
      have hptprob : (⟨h0.node, h0.state, F.fin 0,
          (h0.label_prob.add h0.gap_prob).mul pr0⟩ : SearchPoint).probability =
          F.fin p0 := by
        show (F.fin 0).add ((h0.label_prob.add h0.gap_prob).mul pr0) = _
        rw [h0prob2, hp0eq]
        show F.fin (qadd 0 (qmul 1 p0)) = _
        rw [qadd_eq_add, qmul_eq_mul, one_mul, zero_add]
      have hrow' : ∀ x ∈ pr0 :: prest, ∃ q : ℚ, x = F.fin q ∧ 0 ≤ q :=
        fun x hx => (hrow x hx).imp (fun q hq => ⟨hq.1, le_of_lt hq.2⟩)
      have hewf : ∀ p ∈ r.2, WfPoint p :=
        expandRow_wf (h0 :: t) (pr0 :: prest) idx tree hwf hrow' r hE
      have hsnwf : ∀ p ∈ sortByNode r.2, WfPoint p := by
        intro p hp2
        rw [sortByNode, mem_isort] at hp2
        exact hewf p hp2
      have hmwf : ∀ p ∈ mergeAdjacent (sortByNode r.2), WfPoint p :=
        mergeAdjacent_wf _ hsnwf
      have hpos : ∃ y ∈ mergeAdjacent (sortByNode r.2),
          ∃ q : ℚ, y.probability = F.fin q ∧ 0 < q := by
        refine mergeAdjacent_exists_pos _ hsnwf ?_
        exact ⟨_, by rw [sortByNode, mem_isort]; exact hptmem, p0, hptprob, hp0⟩
      have hspair : List.Pairwise (fun a b => probGe a b = true)
          (sortByProb (mergeAdjacent (sortByNode r.2))) := by
        refine isort_pairwise probGe _ ?_ ?_
        · intro a ha b hb
          exact probGe_total (wfPoint_isFin (hmwf a ha)) (wfPoint_isFin (hmwf b hb))
        · intro a ha b hb c hc
          exact probGe_trans (wfPoint_isFin (hmwf a ha)) (wfPoint_isFin (hmwf b hb))
            (wfPoint_isFin (hmwf c hc))
      have hswf : ∀ p ∈ sortByProb (mergeAdjacent (sortByNode r.2)), WfPoint p := by
        intro p hp2
        rw [sortByProb, mem_isort] at hp2
        exact hmwf p hp2
      simp only [stepRow, hE] at hstep
      cases hN : hasNans (mergeAdjacent (sortByNode r.2)) with
      | true =>
        rw [if_pos hN] at hstep
        exact LoopRes.noConfusion hstep
      | false =>
        rw [if_neg (by rw [hN]; exact Bool.false_ne_true)] at hstep
        cases hP : (sortByProb (mergeAdjacent (sortByNode r.2))).take bs with
        | nil =>
          rw [hP] at hstep
          dsimp only at hstep
          exact LoopRes.noConfusion hstep
        | cons top rest2 =>
          rw [hP] at hstep
          dsimp only at hstep
          have hprwf : ∀ p ∈ top :: rest2, WfPoint p := by
            intro p hp2
            rw [← hP] at hp2
            exact hswf p (List.Sublist.mem hp2 (List.take_sublist bs _))
          have hprpair : List.Pairwise (fun a b => probGe a b = true)
              (top :: rest2) := by
            rw [← hP]
            exact List.Pairwise.sublist (List.take_sublist bs _) hspair
          obtain ⟨qt, hqtprob, hqt0⟩ : ∃ q : ℚ, top.probability = F.fin q ∧ 0 < q := by
            obtain ⟨y, hym, qy, hyprob, hy0⟩ := hpos
            obtain ⟨qt, hqtprob, hqt0⟩ := wfPoint_probability (hprwf top (by simp))
            refine ⟨qt, hqtprob, ?_⟩
            have hys : y ∈ sortByProb (mergeAdjacent (sortByNode r.2)) := by
              rw [sortByProb, mem_isort]
              exact hym
            cases hS : sortByProb (mergeAdjacent (sortByNode r.2)) with
            | nil => rw [hS] at hys; exact absurd hys (List.not_mem_nil y)
            | cons s0 stail =>
              cases bs with
              | zero => rw [List.take_zero] at hP; exact List.noConfusion hP
              | succ n =>
                rw [hS, List.take_succ_cons] at hP
                have hs0 : s0 = top := (List.cons.injEq _ _ _ _ ▸ hP).1
                rw [hS] at hys hspair
                rw [List.pairwise_cons] at hspair
                rcases List.mem_cons.mp hys with h | h
                · rw [← hs0, ← h] at hqtprob
                  rw [hyprob] at hqtprob
                  simp only [F.fin.injEq] at hqtprob
                  rw [hqtprob] at hy0
                  exact hy0
                · have := hspair.1 y h
                  rw [hs0] at this
                  simp only [probGe, hqtprob, hyprob, F.ltB, Bool.not_eq_eq_eq_not,
                    Bool.not_true, decide_eq_false_iff_not] at this
                  exact lt_of_lt_of_le hy0 (not_lt.mp this)
          rw [hqtprob] at hstep
          injection hstep with hT hB
          refine ⟨?_, ?_, ?_⟩
          · intro sp hsp
            rw [← hB] at hsp
            obtain ⟨src, hsrc, hspEq⟩ := List.mem_map.mp hsp
            rw [← hspEq]
            exact renorm_wf (hprwf src hsrc) qt hqt0
          · rw [SortedBeam, ← hB]
            rw [List.pairwise_map]
            refine List.Pairwise.imp_of_mem ?_ hprpair
            intro a b ha hb hab
            exact probGe_renorm qt hqt0 (hprwf a ha) (hprwf b hb) hab
          · refine ⟨(⟨top.node, top.state, top.label_prob.div (F.fin qt), top.gap_prob.div (F.fin qt)⟩ : SearchPoint), rest2.map (fun sp => (⟨sp.node, sp.state, sp.label_prob.div (F.fin qt), sp.gap_prob.div (F.fin qt)⟩ : SearchPoint)), ?_, ?_⟩
            · rw [← hB]
              rfl
            · have hfin1 := renorm_prob (hprwf top (by simp)) qt hqt0 qt hqtprob
              rw [div_self (ne_of_gt hqt0)] at hfin1
              exact hfin1

theorem runLoop_pos (rows : List (List F)) : ∀ (tree : SuffixTree)
    (beam : List SearchPoint) (bs idx : Nat) (tree2 : SuffixTree)
    (beam2 : List SearchPoint), InvBeam beam → (∀ row ∈ rows, PosRow row) →
    runLoop tree beam bs rows idx = .next tree2 beam2 → InvBeam beam2 := by
  induction rows with
  | nil =>
    intro tree beam bs idx tree2 beam2 hinv _ hrun
    simp only [runLoop] at hrun
    injection hrun with h1 h2
    rw [← h2]
    exact hinv
  | cons row rest ih =>
    intro tree beam bs idx tree2 beam2 hinv hrows hrun
    simp only [runLoop] at hrun
    cases hS : stepRow tree beam row idx bs with
    | panicked =>
      rw [hS] at hrun
      exact LoopRes.noConfusion hrun
    | failed e =>
      rw [hS] at hrun
      dsimp only at hrun
      exact LoopRes.noConfusion hrun
    | next t2 b2 =>
      rw [hS] at hrun
      dsimp only at hrun
      exact ih t2 b2 bs (idx + 1) tree2 beam2
        (stepRow_pos tree beam row idx bs t2 b2 hinv (hrows row (by simp)) hS)
        (fun r hr => hrows r (by simp [hr])) hrun

theorem InvBeam_init : InvBeam [initPoint] := by
  refine ⟨?_, List.pairwise_singleton _ _, initPoint, [], rfl, ?_⟩
  · intro sp hsp
    simp only [List.mem_cons, List.not_mem_nil, or_false] at hsp
    subst hsp
    exact ⟨⟨0, rfl, le_refl 0⟩, ⟨1, rfl, by norm_num⟩⟩
  · show (F.fin 0).add (F.fin 1) = F.fin 1
    show F.fin (qadd 0 1) = _
    rw [qadd_zero_left]

/-- C7, counterexample: a successful decode whose scores list is NOT non-increasing.
On a positive first row followed by an all-zero row, every hypothesis's total drops
to zero, the ranking sort sees only comparable (all-zero) totals, and the subsequent
renormalization divides zero by zero: the call succeeds and returns all-NaN scores,
on which the non-increasing comparison (`<=`, false on NaN) fails. -/
theorem C7_counterexample :
    beam_search [2, 3] [[F.fin (mkRat 5 8), F.fin (mkRat 1 4), F.fin (mkRat 1 8)],
      [F.fin 0, F.fin 0, F.fin 0]] ['-', 'a', 'b'] 4 =
      .ok ["a", "b", "ab", "ba"] [F.nan, F.nan, F.nan, F.nan] ∧
    nonIncreasingF [F.nan, F.nan, F.nan, F.nan] = false :=
  ⟨rfl, rfl⟩

/-- C8, counterexample: a successful decode returning the score 0, which lies outside
the claimed half-open interval (0, 1].  A label entry exactly equal to the cut-off is
still expanded (the skip check is strict), so a zero-probability label produces a
surviving hypothesis with total probability exactly 0. -/
theorem C8_counterexample :
    beam_search [1, 3] [[F.fin (mkRat 1 4), F.fin (mkRat 1 2), F.fin 0]]
      ['-', 'a', 'b'] 3 = .ok ["a", "b"] [F.fin 1, F.fin 0] ∧
    ¬ (0 < (0 : ℚ)) :=
  ⟨rfl, by norm_num⟩

/-- C7: for every successful decode of a matrix all of whose rows are finite and
strictly positive, the returned scores are non-increasing, `sequences` and `scores`
correspond index-for-index, and the scores are exactly the total probabilities of the
final pruned beam's non-root hypotheses in beam (descending-score) order. -/
theorem C7_theorem (shape : List Nat) (probs : List (List F)) (alphabet : List Char)
    (bs : Nat) (seqs : List String) (scores : List F)
    (hpos : ∀ row ∈ probs, PosRow row)
    (hok : beam_search shape probs alphabet bs = .ok seqs scores) :
    nonIncreasingF scores = true ∧ seqs.length = scores.length ∧
    ∃ tree2 beam2,
      runLoop (SuffixTree.new (alphabet.length - 1)) [initPoint] bs probs 0 =
        .next tree2 beam2 ∧
      scores = (beam2.filter fun sp => !decide (sp.node = ROOT_NODE)).map
        SearchPoint.probability := by
  unfold beam_search at hok
  by_cases h2 : shape.length ≠ 2
  · rw [if_pos h2] at hok
    exact DecodeResult.noConfusion hok
  · rw [if_neg h2] at hok
    by_cases hA : alphabet.length < 1
    · rw [if_pos hA] at hok
      exact DecodeResult.noConfusion hok
    · rw [if_neg hA] at hok
      cases hrun : runLoop (SuffixTree.new (alphabet.length - 1)) [initPoint] bs
          probs 0 with
      | panicked =>
        rw [hrun] at hok
        exact DecodeResult.noConfusion hok
      | failed e =>
        rw [hrun] at hok
        dsimp only at hok
        exact DecodeResult.noConfusion hok
      | next tree2 beam2 =>
        rw [hrun] at hok
        dsimp only at hok
        have hinv : InvBeam beam2 :=
          runLoop_pos probs _ _ bs 0 tree2 beam2 InvBeam_init hpos hrun
        cases hfin : finalize tree2 alphabet beam2 with
        | none =>
          rw [hfin] at hok
          exact DecodeResult.noConfusion hok
        | some rr =>
          rw [hfin] at hok
          dsimp only at hok
          injection hok with hs1 hs2
          obtain ⟨hsc, hlen⟩ := finalize_eq tree2 alphabet beam2 rr hfin
          refine ⟨?_, ?_, tree2, beam2, rfl, ?_⟩
          · rw [← hs2, hsc]
            refine nonIncr_of_pairwise _ ?_ ?_
            · intro sp hsp
              have hmem : sp ∈ beam2 :=
                List.Sublist.mem hsp (List.filter_sublist _)
              exact wfPoint_isFin (hinv.1 sp hmem)
            · exact List.Pairwise.sublist (List.filter_sublist _) hinv.2.1
          · rw [← hs1, ← hs2]
            exact hlen
          · rw [← hs2]
            exact hsc

/-- C7, witness: the theorem applied to a concrete strictly positive two-row matrix. -/
theorem C7_witness :
    nonIncreasingF [F.fin 1] = true ∧
    (["a"] : List String).length = ([F.fin 1] : List F).length ∧
    ∃ tree2 beam2,
      runLoop (SuffixTree.new 1) [initPoint] 2
        [[F.fin (mkRat 3 4), F.fin (mkRat 1 4)],
         [F.fin (mkRat 1 2), F.fin (mkRat 1 4)]] 0 = .next tree2 beam2 ∧
      ([F.fin 1] : List F) = (beam2.filter fun sp => !decide (sp.node = ROOT_NODE)).map
        SearchPoint.probability :=
  C7_theorem [2, 2] [[F.fin (mkRat 3 4), F.fin (mkRat 1 4)],
      [F.fin (mkRat 1 2), F.fin (mkRat 1 4)]] ['-', 'a'] 2 ["a"] [F.fin 1]
    (by
      intro row hrow
      simp only [List.mem_cons, List.not_mem_nil, or_false] at hrow
      intro x hx
      rcases hrow with h | h <;> subst h <;>
        simp only [List.mem_cons, List.not_mem_nil, or_false] at hx
      · rcases hx with h | h <;> subst h
        · exact ⟨mkRat 3 4, rfl, by norm_num⟩
        · exact ⟨mkRat 1 4, rfl, by norm_num⟩
      · rcases hx with h | h <;> subst h
        · exact ⟨mkRat 1 2, rfl, by norm_num⟩
        · exact ⟨mkRat 1 4, rfl, by norm_num⟩)
    rfl

/-- C8: for every successful decode of a matrix all of whose rows are finite and
strictly positive, every returned score is a finite rational in the closed interval
[0, 1], and the leading hypothesis's total probability is exactly 1 immediately after
the final timestep's renormalization (the beam produced by the timestep loop). -/
theorem C8_theorem (shape : List Nat) (probs : List (List F)) (alphabet : List Char)
    (bs : Nat) (seqs : List String) (scores : List F)
    (hpos : ∀ row ∈ probs, PosRow row)
    (hok : beam_search shape probs alphabet bs = .ok seqs scores) :
    (∀ s ∈ scores, ∃ q : ℚ, s = F.fin q ∧ 0 ≤ q ∧ q ≤ 1) ∧
    ∃ tree2 h t,
      runLoop (SuffixTree.new (alphabet.length - 1)) [initPoint] bs probs 0 =
        .next tree2 (h :: t) ∧ h.probability = F.fin 1 := by
  unfold beam_search at hok
  by_cases h2 : shape.length ≠ 2
  · rw [if_pos h2] at hok
    exact DecodeResult.noConfusion hok
  · rw [if_neg h2] at hok
    by_cases hA : alphabet.length < 1
    · rw [if_pos hA] at hok
      exact DecodeResult.noConfusion hok
    · rw [if_neg hA] at hok
      cases hrun : runLoop (SuffixTree.new (alphabet.length - 1)) [initPoint] bs
          probs 0 with
      | panicked =>
        rw [hrun] at hok
        exact DecodeResult.noConfusion hok
      | failed e =>
        rw [hrun] at hok
        dsimp only at hok
        exact DecodeResult.noConfusion hok
      | next tree2 beam2 =>
        rw [hrun] at hok
        dsimp only at hok
        have hinv : InvBeam beam2 :=
          runLoop_pos probs _ _ bs 0 tree2 beam2 InvBeam_init hpos hrun
        cases hfin : finalize tree2 alphabet beam2 with
        | none =>
          rw [hfin] at hok
          exact DecodeResult.noConfusion hok
        | some rr =>
          rw [hfin] at hok
          dsimp only at hok
          injection hok with hs1 hs2
          obtain ⟨hsc, _⟩ := finalize_eq tree2 alphabet beam2 rr hfin
          constructor
          · intro s hs
            rw [← hs2, hsc] at hs
            obtain ⟨sp, hsp, hspEq⟩ := List.mem_map.mp hs
            have hmem : sp ∈ beam2 :=
              List.Sublist.mem hsp (List.filter_sublist _)
            obtain ⟨q, hq, hq0, hq1⟩ := beam_bounds hinv sp hmem
            exact ⟨q, by rw [← hspEq, hq], hq0, hq1⟩
          · obtain ⟨_, _, h, t, hbeamEq, hhp⟩ := hinv
            exact ⟨tree2, h, t, by rw [hbeamEq], hhp⟩

/-- C8, witness: the theorem applied to a concrete strictly positive two-row matrix
whose decode returns the scores 1 and 9/20. -/
theorem C8_witness :
    (∀ s ∈ ([F.fin 1, F.fin (mkRat 9 20)] : List F),
      ∃ q : ℚ, s = F.fin q ∧ 0 ≤ q ∧ q ≤ 1) ∧
    ∃ tree2 h t,
      runLoop (SuffixTree.new 2) [initPoint] 3
        [[F.fin (mkRat 1 2), F.fin (mkRat 1 4), F.fin (mkRat 1 8)],
         [F.fin (mkRat 1 2), F.fin (mkRat 1 4), F.fin (mkRat 1 8)]] 0 =
        .next tree2 (h :: t) ∧ h.probability = F.fin 1 :=
  C8_theorem [2, 3] [[F.fin (mkRat 1 2), F.fin (mkRat 1 4), F.fin (mkRat 1 8)],
      [F.fin (mkRat 1 2), F.fin (mkRat 1 4), F.fin (mkRat 1 8)]] ['-', 'a', 'b'] 3
    ["a", "b"] [F.fin 1, F.fin (mkRat 9 20)]
    (by
      intro row hrow
      simp only [List.mem_cons, List.not_mem_nil, or_false] at hrow
      intro x hx
      rcases hrow with h | h <;> subst h <;>
        simp only [List.mem_cons, List.not_mem_nil, or_false] at hx <;>
        rcases hx with h | h | h <;> subst h
      · exact ⟨mkRat 1 2, rfl, by norm_num⟩
      · exact ⟨mkRat 1 4, rfl, by norm_num⟩
      · exact ⟨mkRat 1 8, rfl, by norm_num⟩
      · exact ⟨mkRat 1 2, rfl, by norm_num⟩
      · exact ⟨mkRat 1 4, rfl, by norm_num⟩
      · exact ⟨mkRat 1 8, rfl, by norm_num⟩)
    rfl
